import Mathlib

/-!
TeamCalendar: slot calendars, teams and group booking

A shallow embedding of `TeamCalendar.cpp` (48 half-hour slots per person, a team of
named calendars, common availability and group booking with rollback), followed by
theorems about it.

Conventions of the embedding

* C++ `int` values are `Int`.  No arithmetic is performed on `from`/`to` except the
  loop counter `++i`, which is bounded by `SLOT_CAP` after the guards, so no
  wrap-around can occur.
* `std::vector<bool>` is `List Bool`.  `operator[]` outside the vector is undefined
  behaviour in C++; here every indexed access returns an `Option`, and `none`
  propagates: a function returning `none` did not return normally.
* A counted loop `for (int i = a; i < b; ++i)` whose body does not change `i` or `b`
  runs `(b - a).toNat` iterations; it is a structural recursion on that count carrying
  the current `i`.
* `std::unordered_map<std::string, Calendar*>` is an association list; list order is
  the (unspecified, but fixed) iteration order, and keys are pairwise distinct
  (`Team.WF`).  Each entry owns its calendar, so calendars are values.
* A member function mutating `*this` returns the new object next to its result.
-/

namespace TeamCalendar

/-- Mirrors `struct TimeRange { int from; int to; }` (`from` and `to` are reserved words here, hence `from_`, `to_`). -/
structure TimeRange where
  from_ : Int
  to_ : Int
deriving DecidableEq, Repr

/-- Mirrors `static constexpr int SLOT_CAP = 48`. -/
def SLOT_CAP : Int := 48

/-- Mirrors `class Calendar`: its only data member is `timeslots` (`true` = free). -/
structure Calendar where
  timeslots : List Bool
deriving DecidableEq, Repr

/-- Read `timeslots[i]` for a C++ `int` index; `none` when the index is outside the vector. -/
def slotAt (ts : List Bool) (i : Int) : Option Bool :=
  if 0 ≤ i then ts[i.toNat]? else none

/-- Write `timeslots[i] = v` for a C++ `int` index; `none` when the index is outside the vector. -/
def slotSet (ts : List Bool) (i : Int) (v : Bool) : Option (List Bool) :=
  if 0 ≤ i ∧ i < (ts.length : Int) then some (ts.set i.toNat v) else none

/-- Constructor `Calendar() : timeslots(SLOT_CAP, true)`. -/
def Calendar.new : Calendar :=
  ⟨List.replicate SLOT_CAP.toNat true⟩

/-- First loop of `occupy` (lines 38-42): `n` iterations left, current index `i`.
`some false` is the early `return false`, `some true` is falling out of the loop. -/
def occupyCheck (ts : List Bool) : Nat → Int → Option Bool
  | 0, _ => some true
  | n + 1, i =>
    match slotAt ts i with
    | none => none
    | some b => if !b then some false else occupyCheck ts n (i + 1)

/-- The store loops `for (int i = tr.from; i < tr.to; ++i) timeslots[i] = v;`
(lines 45-47 with `v = false`, lines 57-59 with `v = true`). -/
def fillSlots (v : Bool) : List Bool → Nat → Int → Option (List Bool)
  | ts, 0, _ => some ts
  | ts, n + 1, i =>
    match slotSet ts i v with
    | none => none
    | some ts1 => fillSlots v ts1 n (i + 1)

/-- Mirrors `bool Calendar::occupy(const TimeRange&)`: the returned pair is the result and the
calendar after the call. -/
def Calendar.occupy (c : Calendar) (tr : TimeRange) : Option (Bool × Calendar) :=
  if tr.from_ < 0 ∨ tr.to_ > SLOT_CAP ∨ tr.from_ ≥ tr.to_ then
    some (false, c)
  else
    match occupyCheck c.timeslots (tr.to_ - tr.from_).toNat tr.from_ with
    | none => none
    | some false => some (false, c)
    | some true =>
      match fillSlots false c.timeslots (tr.to_ - tr.from_).toNat tr.from_ with
      | none => none
      | some ts => some (true, ⟨ts⟩)

/-- Mirrors `void Calendar::release(const TimeRange&)`: returns the calendar after the call. -/
def Calendar.release (c : Calendar) (tr : TimeRange) : Option Calendar :=
  if tr.from_ < 0 ∨ tr.to_ > SLOT_CAP then
    some c
  else
    match fillSlots true c.timeslots (tr.to_ - tr.from_).toNat tr.from_ with
    | none => none
    | some ts => some ⟨ts⟩

/-- Scan loop of `available` (lines 66-73): `n` iterations left, current index `i`,
current `start`, ranges emitted so far `acc`. -/
def availableLoop (ts : List Bool) : Nat → Int → Int → List TimeRange → Option (Int × List TimeRange)
  | 0, _, start, acc => some (start, acc)
  | n + 1, i, start, acc =>
    match slotAt ts i with
    | none => none
    | some b =>
      if b = true ∧ start = -1 then
        availableLoop ts n (i + 1) i acc
      else if b = false ∧ start ≠ -1 then
        availableLoop ts n (i + 1) (-1) (acc ++ [⟨start, i⟩])
      else
        availableLoop ts n (i + 1) start acc

/-- Mirrors `std::vector<TimeRange> Calendar::available()`. -/
def Calendar.available (c : Calendar) : Option (List TimeRange) :=
  match availableLoop c.timeslots SLOT_CAP.toNat 0 (-1) [] with
  | none => none
  | some (start, acc) =>
    if start ≠ -1 then some (acc ++ [⟨start, SLOT_CAP⟩]) else some acc

/-- Class invariant of `Calendar`: the vector has exactly `SLOT_CAP` slots (established by the
constructor; no member function resizes it). -/
def Calendar.WF (c : Calendar) : Prop :=
  (c.timeslots.length : Int) = SLOT_CAP

instance (c : Calendar) : Decidable c.WF := by
  unfold Calendar.WF; infer_instance

/-- Mirrors `class Team`: `members` in iteration order. -/
structure Team where
  members : List (String × Calendar)
deriving DecidableEq, Repr

/-- Invariant of `Team`: map keys are pairwise distinct and every calendar is well-formed. -/
def Team.WF (t : Team) : Prop :=
  (t.members.map Prod.fst).Nodup ∧ ∀ m ∈ t.members, m.2.WF

/-- Mirrors `Calendar& Team::getCalendar(name)` = `*members.at(name)`; `none` is the
`std::out_of_range` thrown by `at`. -/
def Team.getCalendar (t : Team) (name : String) : Option Calendar :=
  t.members.lookup name

/-- Store through the reference returned by `getCalendar(name)`: the calendar owned by the entry
keyed `name` becomes `c`. -/
def Team.setCalendar (t : Team) (name : String) (c : Calendar) : Team :=
  ⟨t.members.map (fun m => if m.1 = name then (m.1, c) else m)⟩

/-- Mirrors `Team::getAllMembers`. -/
def Team.getAllMembers (t : Team) : List (String × Calendar) :=
  t.members

namespace SmartAssist

/-- Inner loop of `queryAvailable` (lines 136-140) for one member's `timeslots`. -/
def andSlots (timeslots : List Bool) : List Bool → Nat → Int → Option (List Bool)
  | common, 0, _ => some common
  | common, n + 1, i =>
    match slotAt timeslots i with
    | none => none
    | some b =>
      if !b then
        match slotSet common i false with
        | none => none
        | some common1 => andSlots timeslots common1 n (i + 1)
      else andSlots timeslots common n (i + 1)

/-- Outer loop of `queryAvailable` (lines 134-141) over the members in iteration order. -/
def andMembers : List (String × Calendar) → List Bool → Option (List Bool)
  | [], common => some common
  | m :: rest, common =>
    match andSlots m.2.timeslots common 48 0 with
    | none => none
    | some common1 => andMembers rest common1

/-- Scan loop of `queryAvailable` (lines 146-153) over `commonAvailable`. -/
def queryLoop (common : List Bool) : Nat → Int → Int → List TimeRange → Option (Int × List TimeRange)
  | 0, _, start, acc => some (start, acc)
  | n + 1, i, start, acc =>
    match slotAt common i with
    | none => none
    | some b =>
      if b = true ∧ start = -1 then
        queryLoop common n (i + 1) i acc
      else if b = false ∧ start ≠ -1 then
        queryLoop common n (i + 1) (-1) (acc ++ [⟨start, i⟩])
      else
        queryLoop common n (i + 1) start acc

/-- Mirrors `SmartAssist::queryAvailable(const Team&)`. -/
def queryAvailable (team : Team) : Option (List TimeRange) :=
  match andMembers team.getAllMembers (List.replicate 48 true) with
  | none => none
  | some common =>
    match queryLoop common 48 0 (-1) [] with
    | none => none
    | some (start, acc) =>
      if start ≠ -1 then some (acc ++ [⟨start, 48⟩]) else some acc

/-- First loop of `book` (lines 166-172) over the members still to visit.  Returns `canBook`,
those members after the loop, and `bookedMembers`. -/
def bookLoop (tr : TimeRange) :
    List (String × Calendar) → List String → Option (Bool × List (String × Calendar) × List String)
  | [], booked => some (true, [], booked)
  | (name, cal) :: rest, booked =>
    match cal.occupy tr with
    | none => none
    | some (false, cal1) => some (false, (name, cal1) :: rest, booked)
    | some (true, cal1) =>
      match bookLoop tr rest (booked ++ [name]) with
      | none => none
      | some (ok, rest1, booked1) => some (ok, (name, cal1) :: rest1, booked1)

/-- Rollback loop of `book` (lines 176-178): `team.getCalendar(name).release(timerange)` for each
booked name. -/
def rollback (tr : TimeRange) : List String → Team → Option Team
  | [], team => some team
  | name :: names, team =>
    match team.getCalendar name with
    | none => none
    | some cal =>
      match cal.release tr with
      | none => none
      | some cal1 => rollback tr names (team.setCalendar name cal1)

/-- Mirrors `bool SmartAssist::book(Team&, const TimeRange&)`: the returned pair is the result
and the team after the call. -/
def book (team : Team) (tr : TimeRange) : Option (Bool × Team) :=
  match bookLoop tr team.getAllMembers [] with
  | none => none
  | some (true, members1, _) => some (true, ⟨members1⟩)
  | some (false, members1, bookedMembers) =>
    match rollback tr bookedMembers ⟨members1⟩ with
    | none => none
    | some team1 => some (false, team1)

end SmartAssist

/-- Slot `i` of the calendar is free (`timeslots[i] == true`). -/
def Calendar.free (c : Calendar) (i : Int) : Prop :=
  slotAt c.timeslots i = some true

/-- Slot `i` of the calendar is occupied (`timeslots[i] == false`). -/
def Calendar.occupied (c : Calendar) (i : Int) : Prop :=
  slotAt c.timeslots i = some false

instance (c : Calendar) (i : Int) : Decidable (c.free i) := by
  unfold Calendar.free; infer_instance

instance (c : Calendar) (i : Int) : Decidable (c.occupied i) := by
  unfold Calendar.occupied; infer_instance

/-- Slot index `i` lies inside the half-open range `r`. -/
def TimeRange.contains (r : TimeRange) (i : Int) : Prop :=
  r.from_ ≤ i ∧ i < r.to_

instance (r : TimeRange) (i : Int) : Decidable (r.contains i) := by
  unfold TimeRange.contains; infer_instance

/-- The range passes the guard of `occupy` (line 33). -/
def TimeRange.valid (r : TimeRange) : Prop :=
  0 ≤ r.from_ ∧ r.from_ < r.to_ ∧ r.to_ ≤ SLOT_CAP

instance (r : TimeRange) : Decidable r.valid := by
  unfold TimeRange.valid; infer_instance

/-- Relation between a member before and after a successful `occupy(tr)` made by `book`. -/
def occupiedTo (tr : TimeRange) (m m1 : String × Calendar) : Prop :=
  m1.1 = m.1 ∧ m.2.occupy tr = some (true, m1.2)

instance : Decidable (Team.WF t) := by
  unfold Team.WF; infer_instance

/-- Loop invariant of the scan loops of `available` and `queryAvailable` before the iteration
with index `k`: `acc` holds the closed maximal free runs lying left of `k`, and `start` is the
first slot of the free run still open at `k` (or `-1` when slot `k - 1` is not free). -/
structure ScanInv (ts : List Bool) (k : Nat) (start : Int) (acc : List TimeRange) : Prop where
  start_rng : start = -1 ∨ (0 ≤ start ∧ start < k)
  run_free : start ≠ -1 → ∀ i : Int, start ≤ i → i < k → slotAt ts i = some true
  run_left : start ≠ -1 → start = 0 ∨ slotAt ts (start - 1) = some false
  idle_left : start = -1 → (k : Int) = 0 ∨ slotAt ts ((k : Int) - 1) = some false
  acc_ok : ∀ r ∈ acc, 0 ≤ r.from_ ∧ r.from_ < r.to_ ∧ r.to_ < k ∧
    (∀ i : Int, r.from_ ≤ i → i < r.to_ → slotAt ts i = some true) ∧
    slotAt ts r.to_ = some false ∧ (r.from_ = 0 ∨ slotAt ts (r.from_ - 1) = some false)
  acc_before : start ≠ -1 → ∀ r ∈ acc, r.to_ < start
  sorted : acc.Pairwise (fun a b => a.to_ < b.from_)
  cover : ∀ i : Int, 0 ≤ i → i < k → slotAt ts i = some true →
    (∃ r ∈ acc, r.from_ ≤ i ∧ i < r.to_) ∨ (start ≠ -1 ∧ start ≤ i)

/-- The list `rs` is the list of maximal free runs of the slot vector `ts`, in ascending order:
every range is inside the grid and non-empty, consecutive ranges are separated by a gap, the slot
left of each range and the slot at its end are occupied unless outside the grid, and a slot index
lies in some range exactly when that slot is free. -/
structure FreeRangesOf (ts : List Bool) (rs : List TimeRange) : Prop where
  valid : ∀ r ∈ rs, 0 ≤ r.from_ ∧ r.from_ < r.to_ ∧ r.to_ ≤ (ts.length : Int)
  sorted : rs.Pairwise (fun a b => a.to_ < b.from_)
  left_max : ∀ r ∈ rs, r.from_ = 0 ∨ slotAt ts (r.from_ - 1) = some false
  right_max : ∀ r ∈ rs, r.to_ = (ts.length : Int) ∨ slotAt ts r.to_ = some false
  cover : ∀ i : Int, (∃ r ∈ rs, r.contains i) ↔ slotAt ts i = some true

/-- Calendar of lily in `main`: fresh, then `occupy({22, 28})`. -/
def lilyCalendar : Calendar :=
  ⟨List.replicate 22 true ++ List.replicate 6 false ++ List.replicate 20 true⟩

/-- Calendar of joe in `main`: fresh, then `occupy({24, 26})`. -/
def joeCalendar : Calendar :=
  ⟨List.replicate 24 true ++ List.replicate 2 false ++ List.replicate 22 true⟩

/-- The team of `main` before its first query: tom free, lily busy on [22,28),
joe busy on [24,26). -/
def exampleTeam : Team :=
  ⟨[("tom", Calendar.new), ("lily", lilyCalendar), ("joe", joeCalendar)]⟩

/-- The team of `main` once [0,22) has been booked for everybody. -/
def exampleTeamBooked : Team :=
  ⟨[("tom", ⟨List.replicate 22 false ++ List.replicate 26 true⟩),
    ("lily", ⟨List.replicate 28 false ++ List.replicate 20 true⟩),
    ("joe", ⟨List.replicate 22 false ++ List.replicate 2 true ++ List.replicate 2 false ++
      List.replicate 22 true⟩)]⟩

/-- A calendar whose first slot alone is occupied. -/
def busyFirst : Calendar :=
  ⟨false :: List.replicate 47 true⟩

/-- Calls `occupy(tr)` and then `release(tr)` on the same calendar; returns the result of
`occupy` and the calendar after both calls. -/
def occupyThenRelease (c : Calendar) (tr : TimeRange) : Option (Bool × Calendar) :=
  match c.occupy tr with
  | none => none
  | some (b, c1) =>
    match c1.release tr with
    | none => none
    | some c2 => some (b, c2)

/-- Mirrors `void Team::add(const std::string&, Calendar*)` (lines 102-110): an existing entry
keeps its place and gets the new calendar (the old one is deleted); otherwise a new entry is
inserted.  The place of a new entry in the iteration order is unspecified; it is put last. -/
def Team.addWith (t : Team) (name : String) (calendar : Calendar) : Team :=
  match t.members.find? (fun m => m.1 == name) with
  | some _ => t.setCalendar name calendar
  | none => ⟨t.members ++ [(name, calendar)]⟩

/-- Mirrors `void Team::add(const std::string&)` = `add(name, new Calendar())`. -/
def Team.add (t : Team) (name : String) : Team :=
  t.addWith name Calendar.new

/-- Mirrors `void Team::remove(const std::string&)` (lines 112-118): the entry found is erased,
the others keep their order. -/
def Team.remove (t : Team) (name : String) : Team :=
  match t.members.find? (fun m => m.1 == name) with
  | some _ => ⟨t.members.eraseP (fun m => m.1 == name)⟩
  | none => t

/-- The schedule described by "slot `i` is free exactly when slot `i` is free for every member":
the AND of the members' slot vectors over the 48 slots. -/
def commonSchedule (team : Team) : Calendar :=
  ⟨(List.range 48).map (fun (i : Nat) => team.members.all (fun m => decide (m.2.free (i : Int))))⟩

/-- Slot indices read by the check loop of `occupy` (lines 38-42), in order: the loop stops
after reading an occupied slot. -/
def occupyCheckReads (ts : List Bool) : Nat → Int → List Int
  | 0, _ => []
  | n + 1, i =>
    match slotAt ts i with
    | some true => i :: occupyCheckReads ts n (i + 1)
    | _ => [i]

/-- Slot indices written by a store loop `for (int i = a; i < b; ++i) timeslots[i] = v;` with
`n` iterations left and current index `i`. -/
def fillWrites : Nat → Int → List Int
  | 0, _ => []
  | n + 1, i => i :: fillWrites n (i + 1)

/-- Every slot index that `occupy(tr)` reads or writes, in order. -/
def Calendar.occupyAccesses (c : Calendar) (tr : TimeRange) : List Int :=
  if tr.from_ < 0 ∨ tr.to_ > SLOT_CAP ∨ tr.from_ ≥ tr.to_ then
    []
  else
    occupyCheckReads c.timeslots (tr.to_ - tr.from_).toNat tr.from_ ++
      (match occupyCheck c.timeslots (tr.to_ - tr.from_).toNat tr.from_ with
       | some true => fillWrites (tr.to_ - tr.from_).toNat tr.from_
       | _ => [])

/-- Every slot index that `release(tr)` writes, in order (it reads none). -/
def Calendar.releaseAccesses (tr : TimeRange) : List Int :=
  if tr.from_ < 0 ∨ tr.to_ > SLOT_CAP then
    []
  else
    fillWrites (tr.to_ - tr.from_).toNat tr.from_

/-- How a run of `main` ends (assertions enabled): `return` with a code, a failed `assert` at a
source line, or no normal return (out-of-bounds access, uncaught exception). -/
inductive MainOutcome where
  | returned (code : Int)
  | assertFailed (line : Nat)
  | abnormal
deriving DecidableEq, Repr

/-- A statement `myTeam.getCalendar(name).occupy(tr);` of `main` (lines 191-192), whose result
is discarded. -/
def mainOccupy (t : Team) (name : String) (tr : TimeRange) : Option Team :=
  match t.getCalendar name with
  | none => none
  | some c =>
    match c.occupy tr with
    | none => none
    | some (_, c1) => some (t.setCalendar name c1)

/-- Lines 186-192 of `main`: the team after the three `add` and the two `occupy`. -/
def mainSetup : Option Team :=
  match mainOccupy ((((Team.mk []).add "tom").add "lily").add "joe") "joe" ⟨24, 26⟩ with
  | none => none
  | some t1 => mainOccupy t1 "lily" ⟨22, 28⟩

/-- Lines 186-200 of `main`: either the run has already ended, or the team reaching line 203. -/
def mainHappyCase : MainOutcome ⊕ Team :=
  match mainSetup with
  | none => Sum.inl MainOutcome.abnormal
  | some myTeam =>
    match SmartAssist.queryAvailable myTeam with
    | none => Sum.inl MainOutcome.abnormal
    | some [] => Sum.inr myTeam
    | some (r :: _) =>
      match SmartAssist.book myTeam r with
      | none => Sum.inl MainOutcome.abnormal
      | some (false, _) => Sum.inl (MainOutcome.assertFailed 199)
      | some (true, myTeam1) => Sum.inr myTeam1

/-- Mirrors `int main()` with assertions enabled. -/
def main : MainOutcome :=
  match mainHappyCase with
  | Sum.inl out => out
  | Sum.inr myTeam =>
    match SmartAssist.book myTeam ⟨20, 23⟩ with
    | none => MainOutcome.abnormal
    | some (false, _) => MainOutcome.assertFailed 203
    | some (true, _) => MainOutcome.returned 0

/-- The six iteration orders of the team tom (free), lily (busy on [22,28)), joe (busy on
[24,26)). -/
def exampleOrders : List Team :=
  [⟨[("tom", Calendar.new), ("lily", lilyCalendar), ("joe", joeCalendar)]⟩,
   ⟨[("tom", Calendar.new), ("joe", joeCalendar), ("lily", lilyCalendar)]⟩,
   ⟨[("lily", lilyCalendar), ("tom", Calendar.new), ("joe", joeCalendar)]⟩,
   ⟨[("lily", lilyCalendar), ("joe", joeCalendar), ("tom", Calendar.new)]⟩,
   ⟨[("joe", joeCalendar), ("tom", Calendar.new), ("lily", lilyCalendar)]⟩,
   ⟨[("joe", joeCalendar), ("lily", lilyCalendar), ("tom", Calendar.new)]⟩]

/-- The team left by `book(team, tr)`, or the team itself when the call does not return. -/
def teamAfterBook (team : Team) (tr : TimeRange) : Team :=
  match SmartAssist.book team tr with
  | some (_, team1) => team1
  | none => team

theorem slotAt_natCast (ts : List Bool) (k : Nat) : slotAt ts (k : Int) = ts[k]? := by
  simp [slotAt]

theorem slotAt_neg (ts : List Bool) (i : Int) (h : i < 0) : slotAt ts i = none := by
  simp [slotAt, h]

theorem slotAt_ge (ts : List Bool) (i : Int) (h : (ts.length : Int) ≤ i) : slotAt ts i = none := by
  unfold slotAt
  split
  · apply List.getElem?_eq_none
    omega
  · rfl

theorem slotAt_isSome (ts : List Bool) (i : Int) (h0 : 0 ≤ i) (h1 : i < (ts.length : Int)) :
    ∃ b, slotAt ts i = some b := by
  obtain ⟨k, rfl⟩ := Int.eq_ofNat_of_zero_le h0
  have hk : k < ts.length := by omega
  exact ⟨ts[k], by simp [slotAt_natCast, List.getElem?_eq_getElem hk]⟩

theorem slotAt_ext (ts ts1 : List Bool) (h : ∀ i : Int, slotAt ts i = slotAt ts1 i) : ts = ts1 := by
  apply List.ext_getElem?
  intro k
  have := h (k : Int)
  simpa [slotAt_natCast] using this

theorem slotSet_natCast (ts : List Bool) (k : Nat) (v : Bool) (h : k < ts.length) :
    slotSet ts (k : Int) v = some (ts.set k v) := by
  simp [slotSet, h]

/-! ## The store loop -/

theorem fillSlots_nat (v : Bool) (n : Nat) : ∀ (ts : List Bool) (k : Nat), k + n ≤ ts.length →
    ∃ ts1, fillSlots v ts n (k : Int) = some ts1 ∧ ts1.length = ts.length ∧
      ∀ j : Nat, ts1[j]? = if k ≤ j ∧ j < k + n then some v else ts[j]? := by
  induction n with
  | zero =>
    intro ts k _
    refine ⟨ts, rfl, rfl, ?_⟩
    intro j
    have : ¬ (k ≤ j ∧ j < k + 0) := by omega
    rw [if_neg this]
  | succ n ih =>
    intro ts k hk
    have hlt : k < ts.length := by omega
    obtain ⟨ts1, h1, h2, h3⟩ := ih (ts.set k v) (k + 1) (by simp; omega)
    refine ⟨ts1, ?_, by simpa using h2, ?_⟩
    · simp only [fillSlots, slotSet_natCast ts k v hlt]
      have : ((k : Int) + 1) = ((k + 1 : Nat) : Int) := by push_cast; rfl
      rw [this]; exact h1
    · intro j
      rw [h3 j, List.getElem?_set]
      by_cases hj : k = j
      · subst hj
        have : ¬ (k + 1 ≤ k ∧ k < k + 1 + n) := by omega
        simp [this, hlt]
      · by_cases hr : k + 1 ≤ j ∧ j < k + 1 + n
        · have : k ≤ j ∧ j < k + (n + 1) := by omega
          simp [hr, this]
        · have : ¬ (k ≤ j ∧ j < k + (n + 1)) := by omega
          simp [hr, this, hj]

theorem fillSlots_int (v : Bool) (ts : List Bool) (a b : Int) (h0 : 0 ≤ a)
    (hb : b ≤ (ts.length : Int)) :
    ∃ ts1, fillSlots v ts (b - a).toNat a = some ts1 ∧ ts1.length = ts.length ∧
      ∀ i : Int, slotAt ts1 i = if a ≤ i ∧ i < b then some v else slotAt ts i := by
  by_cases hab : b ≤ a
  · have hn : (b - a).toNat = 0 := by omega
    refine ⟨ts, by rw [hn]; rfl, rfl, ?_⟩
    intro i
    have hr : ¬ (a ≤ i ∧ i < b) := by omega
    rw [if_neg hr]
  obtain ⟨k, rfl⟩ := Int.eq_ofNat_of_zero_le h0
  obtain ⟨ts1, h1, h2, h3⟩ := fillSlots_nat v (b - (k : Int)).toNat ts k (by omega)
  refine ⟨ts1, h1, h2, ?_⟩
  intro i
  by_cases hi : 0 ≤ i
  · obtain ⟨j, rfl⟩ := Int.eq_ofNat_of_zero_le hi
    rw [slotAt_natCast, slotAt_natCast, h3 j]
    by_cases hr : (k : Int) ≤ (j : Int) ∧ (j : Int) < b
    · have : k ≤ j ∧ j < k + (b - (k : Int)).toNat := by omega
      rw [if_pos hr, if_pos this]
    · have : ¬ (k ≤ j ∧ j < k + (b - (k : Int)).toNat) := by omega
      rw [if_neg hr, if_neg this]
  · have hr : ¬ ((k : Int) ≤ i ∧ i < b) := by omega
    rw [if_neg hr, slotAt_neg _ _ (by omega), slotAt_neg _ _ (by omega)]

/-! ## The check loop of `occupy` -/

theorem occupyCheck_nat (ts : List Bool) (n : Nat) : ∀ k : Nat, k + n ≤ ts.length →
    ∃ b, occupyCheck ts n (k : Int) = some b ∧
      (b = true ↔ ∀ j : Nat, k ≤ j → j < k + n → ts[j]? = some true) := by
  induction n with
  | zero =>
    intro k _
    refine ⟨true, rfl, ?_⟩
    simp only [true_iff]
    intro j h1 h2
    omega
  | succ n ih =>
    intro k hk
    have hlt : k < ts.length := by omega
    obtain ⟨b, hb1, hb2⟩ := ih (k + 1) (by omega)
    have hcast : ((k : Int) + 1) = ((k + 1 : Nat) : Int) := by push_cast; rfl
    have hget : ts[k]? = some ts[k] := List.getElem?_eq_getElem hlt
    have hs : slotAt ts (k : Int) = some ts[k] := by rw [slotAt_natCast, hget]
    cases hv : ts[k] with
    | false =>
      rw [hv] at hs hget
      refine ⟨false, ?_, ?_⟩
      · simp only [occupyCheck, hs]
        rfl
      · simp only [Bool.false_eq_true, false_iff, not_forall]
        exact ⟨k, le_refl k, by omega, by rw [hget]; simp⟩
    | true =>
      rw [hv] at hs hget
      refine ⟨b, ?_, ?_⟩
      · simp only [occupyCheck, hs, hcast, hb1]
        rfl
      · rw [hb2]
        constructor
        · intro h j hj1 hj2
          by_cases hjk : j = k
          · subst hjk
            exact hget
          · exact h j (by omega) (by omega)
        · intro h j hj1 hj2
          exact h j (by omega) (by omega)

theorem occupyCheck_int (ts : List Bool) (a b : Int) (h0 : 0 ≤ a) (hb : b ≤ (ts.length : Int)) :
    ∃ r, occupyCheck ts (b - a).toNat a = some r ∧
      (r = true ↔ ∀ i : Int, a ≤ i → i < b → slotAt ts i = some true) := by
  by_cases hab : b ≤ a
  · have hn : (b - a).toNat = 0 := by omega
    refine ⟨true, by rw [hn]; rfl, ?_⟩
    simp only [true_iff]
    intro i h1 h2
    omega
  obtain ⟨k, rfl⟩ := Int.eq_ofNat_of_zero_le h0
  obtain ⟨r, h1, h2⟩ := occupyCheck_nat ts (b - (k : Int)).toNat k (by omega)
  refine ⟨r, h1, ?_⟩
  rw [h2]
  constructor
  · intro h i hi1 hi2
    obtain ⟨j, rfl⟩ := Int.eq_ofNat_of_zero_le (by omega : 0 ≤ i)
    rw [slotAt_natCast]
    exact h j (by omega) (by omega)
  · intro h j hj1 hj2
    have := h (j : Int) (by omega) (by omega)
    simpa [slotAt_natCast] using this

/-! ## `Calendar::occupy` and `Calendar::release` -/

theorem Calendar.ext_slots (c c1 : Calendar)
    (h : ∀ i : Int, slotAt c.timeslots i = slotAt c1.timeslots i) : c = c1 := by
  cases c; cases c1
  simp only [Calendar.mk.injEq]
  exact slotAt_ext _ _ h

theorem Calendar.occupy_spec (c : Calendar) (tr : TimeRange) (hwf : c.WF) :
    ∃ b c1, c.occupy tr = some (b, c1) ∧ c1.WF ∧
      (b = true ↔ (tr.valid ∧ ∀ i : Int, tr.contains i → c.free i)) ∧
      (b = false → c1 = c) ∧
      (b = true → ∀ i : Int, slotAt c1.timeslots i =
        if tr.contains i then some false else slotAt c.timeslots i) := by
  unfold Calendar.WF at hwf
  by_cases hg : tr.from_ < 0 ∨ tr.to_ > SLOT_CAP ∨ tr.from_ ≥ tr.to_
  · refine ⟨false, c, by simp [Calendar.occupy, hg], hwf, ?_, fun _ => rfl, by simp⟩
    simp only [Bool.false_eq_true, false_iff, not_and]
    intro hv
    unfold TimeRange.valid at hv
    omega
  · have hv : tr.valid := by unfold TimeRange.valid; omega
    obtain ⟨r, hr1, hr2⟩ := occupyCheck_int c.timeslots tr.from_ tr.to_ hv.1 (by rw [hwf]; exact hv.2.2)
    obtain ⟨ts1, hf1, hf2, hf3⟩ :=
      fillSlots_int false c.timeslots tr.from_ tr.to_ hv.1 (by rw [hwf]; exact hv.2.2)
    cases r with
    | false =>
      refine ⟨false, c, by simp [Calendar.occupy, hg, hr1], hwf, ?_, fun _ => rfl, by simp⟩
      simp only [Bool.false_eq_true, false_iff, not_and]
      intro _ hall
      have := hr2.mpr (fun i h1 h2 => hall i ⟨h1, h2⟩)
      simp at this
    | true =>
      refine ⟨true, ⟨ts1⟩, by simp [Calendar.occupy, hg, hr1, hf1], ?_, ?_, by simp, ?_⟩
      · unfold Calendar.WF
        simp only [hf2, hwf]
      · simp only [true_iff]
        exact ⟨hv, fun i hi => hr2.mp rfl i hi.1 hi.2⟩
      · intro _ i
        exact hf3 i

theorem Calendar.release_spec (c : Calendar) (tr : TimeRange) (hwf : c.WF) :
    ∃ c1, c.release tr = some c1 ∧ c1.WF ∧
      ((tr.from_ < 0 ∨ tr.to_ > SLOT_CAP) → c1 = c) ∧
      (¬ (tr.from_ < 0 ∨ tr.to_ > SLOT_CAP) → ∀ i : Int, slotAt c1.timeslots i =
        if tr.contains i then some true else slotAt c.timeslots i) := by
  unfold Calendar.WF at hwf
  by_cases hg : tr.from_ < 0 ∨ tr.to_ > SLOT_CAP
  · exact ⟨c, by simp [Calendar.release, hg], hwf, fun _ => rfl, fun h => absurd hg h⟩
  · obtain ⟨ts1, hf1, hf2, hf3⟩ :=
      fillSlots_int true c.timeslots tr.from_ tr.to_ (by omega) (by rw [hwf]; omega)
    refine ⟨⟨ts1⟩, by simp [Calendar.release, hg, hf1], ?_, fun h => absurd h hg, fun _ i => hf3 i⟩
    unfold Calendar.WF
    simp only [hf2, hwf]

/-- A successful `occupy(tr)` is undone exactly by `release(tr)`. -/
theorem Calendar.release_after_occupy (c c1 : Calendar) (tr : TimeRange) (hwf : c.WF)
    (h : c.occupy tr = some (true, c1)) : c1.release tr = some c := by
  obtain ⟨b, c2, h1, hwf2, hb, _, hs⟩ := c.occupy_spec tr hwf
  rw [h1] at h
  simp only [Option.some.injEq, Prod.mk.injEq] at h
  obtain ⟨rfl, rfl⟩ := h
  obtain ⟨hv, hfree⟩ := hb.mp rfl
  obtain ⟨c3, h3, _, _, hr⟩ := c2.release_spec tr hwf2
  rw [h3]
  congr 1
  apply Calendar.ext_slots
  intro i
  have hng : ¬ (tr.from_ < 0 ∨ tr.to_ > SLOT_CAP) := by
    unfold TimeRange.valid at hv; omega
  rw [hr hng i]
  by_cases hi : tr.contains i
  · rw [if_pos hi]
    exact (hfree i hi).symm
  · rw [if_neg hi, hs rfl i, if_neg hi]

/-! ## `SmartAssist::book` -/

theorem lookup_append_of_not_mem (k : String) (l1 l2 : List (String × Calendar))
    (h : k ∉ l1.map Prod.fst) : (l1 ++ l2).lookup k = l2.lookup k := by
  induction l1 with
  | nil => rfl
  | cons x l1 ih =>
    obtain ⟨k1, v1⟩ := x
    simp only [List.map_cons, List.mem_cons, not_or] at h
    have hne : (k == k1) = false := by simpa using h.1
    simp only [List.cons_append, List.lookup_cons, hne]
    exact ih h.2

theorem mem_of_lookup (k : String) (c : Calendar) (l : List (String × Calendar))
    (h : l.lookup k = some c) : (k, c) ∈ l := by
  induction l with
  | nil => simp at h
  | cons x l ih =>
    obtain ⟨k1, v1⟩ := x
    simp only [List.lookup_cons] at h
    cases hb : (k == k1) with
    | true =>
      rw [hb] at h
      simp only [Option.some.injEq] at h
      have : k = k1 := by simpa using hb
      subst this; subst h
      exact List.mem_cons_self _ _
    | false =>
      rw [hb] at h
      exact List.mem_cons_of_mem _ (ih h)

theorem map_set_of_not_mem (k : String) (c : Calendar) (l : List (String × Calendar))
    (h : k ∉ l.map Prod.fst) : l.map (fun m => if m.1 = k then (m.1, c) else m) = l := by
  induction l with
  | nil => rfl
  | cons x l ih =>
    simp only [List.map_cons, List.mem_cons, not_or] at h
    have hne : ¬ x.1 = k := fun e => h.1 e.symm
    simp only [List.map_cons, if_neg hne, ih h.2]

theorem occupiedTo_names (tr : TimeRange) (ms ms1 : List (String × Calendar))
    (h : List.Forall₂ (occupiedTo tr) ms ms1) : ms1.map Prod.fst = ms.map Prod.fst := by
  induction h with
  | nil => rfl
  | cons hr _ ih => simp only [List.map_cons, ih, hr.1]

theorem occupiedTo_lookup (tr : TimeRange) (ms ms1 : List (String × Calendar))
    (h : List.Forall₂ (occupiedTo tr) ms ms1) (name : String) (c : Calendar)
    (hc : ms.lookup name = some c) :
    ∃ c1, ms1.lookup name = some c1 ∧ c.occupy tr = some (true, c1) := by
  induction h with
  | nil => simp at hc
  | @cons m m1 l l1 hr _ ih =>
    obtain ⟨k, v⟩ := m
    obtain ⟨k1, v1⟩ := m1
    obtain ⟨hk, ho⟩ := hr
    simp only at hk ho
    subst hk
    simp only [List.lookup_cons] at hc ⊢
    cases hb : (name == k1) with
    | true =>
      rw [hb] at hc
      simp only [Option.some.injEq] at hc
      subst hc
      exact ⟨v1, rfl, ho⟩
    | false =>
      rw [hb] at hc
      exact ih hc

theorem occupiedTo_all (tr : TimeRange) (ms ms1 : List (String × Calendar))
    (h : List.Forall₂ (occupiedTo tr) ms ms1) :
    ∀ m ∈ ms, ∃ c1, m.2.occupy tr = some (true, c1) := by
  induction h with
  | nil => simp
  | @cons m m1 l l1 hr _ ih =>
    intro x hx
    rcases List.mem_cons.mp hx with rfl | hx
    · exact ⟨m1.2, hr.2⟩
    · exact ih x hx

theorem bookLoop_spec (tr : TimeRange) : ∀ (ms : List (String × Calendar)) (booked : List String),
    (∀ m ∈ ms, m.2.WF) →
    (∃ ms1, SmartAssist.bookLoop tr ms booked = some (true, ms1, booked ++ ms.map Prod.fst) ∧
        List.Forall₂ (occupiedTo tr) ms ms1) ∨
    (∃ pre pre1 m post, ms = pre ++ m :: post ∧ List.Forall₂ (occupiedTo tr) pre pre1 ∧
        m.2.occupy tr = some (false, m.2) ∧
        SmartAssist.bookLoop tr ms booked =
          some (false, pre1 ++ m :: post, booked ++ pre.map Prod.fst)) := by
  intro ms
  induction ms with
  | nil =>
    intro booked _
    exact Or.inl ⟨[], by simp [SmartAssist.bookLoop], List.Forall₂.nil⟩
  | cons x rest ih =>
    intro booked hwf
    obtain ⟨name, cal⟩ := x
    obtain ⟨b, c1, ho, _, _, hfalse, _⟩ := cal.occupy_spec tr (hwf (name, cal) (List.mem_cons_self _ _))
    cases b with
    | false =>
      have hc : c1 = cal := hfalse rfl
      subst hc
      exact Or.inr ⟨[], [], (name, c1), rest, rfl, List.Forall₂.nil, ho,
        by simp [SmartAssist.bookLoop, ho]⟩
    | true =>
      have hrest : ∀ m ∈ rest, m.2.WF := fun m hm => hwf m (List.mem_cons_of_mem _ hm)
      rcases ih (booked ++ [name]) hrest with ⟨ms1, h1, h2⟩ | ⟨pre, pre1, m, post, e, h2, h3, h1⟩
      · exact Or.inl ⟨(name, c1) :: ms1, by simp [SmartAssist.bookLoop, ho, h1],
          List.Forall₂.cons ⟨rfl, ho⟩ h2⟩
      · exact Or.inr ⟨(name, cal) :: pre, (name, c1) :: pre1, m, post, by simp [e],
          List.Forall₂.cons ⟨rfl, ho⟩ h2, h3, by simp [SmartAssist.bookLoop, ho, h1]⟩

theorem rollback_spec (tr : TimeRange) (pre pre1 : List (String × Calendar))
    (h : List.Forall₂ (occupiedTo tr) pre pre1) :
    ∀ (front rest : List (String × Calendar)), (∀ m ∈ pre, m.2.WF) →
      ((front ++ (pre ++ rest)).map Prod.fst).Nodup →
      SmartAssist.rollback tr (pre.map Prod.fst) ⟨front ++ (pre1 ++ rest)⟩ =
        some ⟨front ++ (pre ++ rest)⟩ := by
  induction h with
  | nil =>
    intro front rest _ _
    rfl
  | @cons m m1 l l1 hr hl ih =>
    intro front rest hwf hnd
    obtain ⟨k, v⟩ := m
    obtain ⟨k1, v1⟩ := m1
    obtain ⟨hk, ho⟩ := hr
    simp only at hk ho
    subst hk
    have hnames := occupiedTo_names tr l l1 hl
    have hnd1 := hnd
    simp only [List.map_append, List.map_cons, List.cons_append] at hnd1
    rw [List.nodup_append] at hnd1
    obtain ⟨_, hnd2, hdisj⟩ := hnd1
    rw [List.nodup_cons] at hnd2
    have hfront : k1 ∉ front.map Prod.fst := fun hmem =>
      hdisj hmem (List.mem_cons_self _ _)
    have htail : k1 ∉ (l ++ rest).map Prod.fst := by
      simpa only [List.map_append] using hnd2.1
    have htail1 : k1 ∉ (l1 ++ rest).map Prod.fst := by
      simpa only [List.map_append, hnames] using hnd2.1
    have hrel : v1.release tr = some v :=
      Calendar.release_after_occupy v v1 tr (hwf (k1, v) (List.mem_cons_self _ _)) ho
    have hget : Team.getCalendar ⟨front ++ ((k1, v1) :: l1 ++ rest)⟩ k1 = some v1 := by
      unfold Team.getCalendar
      simp only [List.cons_append]
      rw [lookup_append_of_not_mem k1 _ _ hfront]
      simp [List.lookup_cons]
    have hset : Team.setCalendar ⟨front ++ ((k1, v1) :: l1 ++ rest)⟩ k1 v =
        ⟨(front ++ [(k1, v)]) ++ (l1 ++ rest)⟩ := by
      unfold Team.setCalendar
      simp only [List.cons_append, List.map_append, List.map_cons, if_true,
        map_set_of_not_mem k1 v front hfront, List.append_assoc, List.singleton_append]
      have := map_set_of_not_mem k1 v (l1 ++ rest) htail1
      simp only [List.map_append] at this
      rw [this]
      rfl
    simp only [List.map_cons, SmartAssist.rollback, hget, hrel, hset]
    rw [ih (front ++ [(k1, v)]) rest (fun x hx => hwf x (List.mem_cons_of_mem _ hx))]
    · simp
    · simpa using hnd

theorem book_spec (team : Team) (tr : TimeRange) (hwf : team.WF) :
    (∃ ms1, SmartAssist.book team tr = some (true, ⟨ms1⟩) ∧
        List.Forall₂ (occupiedTo tr) team.members ms1) ∨
    (SmartAssist.book team tr = some (false, team) ∧
        ∃ m ∈ team.members, m.2.occupy tr = some (false, m.2)) := by
  obtain ⟨ms⟩ := team
  obtain ⟨hnd, hcal⟩ := hwf
  simp only at hnd hcal
  rcases bookLoop_spec tr ms [] hcal with ⟨ms1, h1, h2⟩ | ⟨pre, pre1, m, post, e, h2, h3, h1⟩
  · exact Or.inl ⟨ms1, by simp [SmartAssist.book, Team.getAllMembers, h1], h2⟩
  · right
    subst e
    have hroll := rollback_spec tr pre pre1 h2 [] (m :: post)
      (fun x hx => hcal x (List.mem_append_left _ hx)) (by simpa using hnd)
    simp only [List.nil_append] at hroll
    simp only [List.nil_append] at h1
    refine ⟨?_, m, by simp, h3⟩
    simp only [SmartAssist.book, Team.getAllMembers, h1, hroll]

/-! ## The scan loop of `available` -/

theorem scanInv_init (ts : List Bool) : ScanInv ts 0 (-1) [] where
  start_rng := Or.inl rfl
  run_free := fun h => absurd rfl h
  run_left := fun h => absurd rfl h
  idle_left := fun _ => Or.inl rfl
  acc_ok := by simp
  acc_before := fun h => absurd rfl h
  sorted := List.Pairwise.nil
  cover := by
    intro i h0 h1
    simp only [Nat.cast_zero] at h1
    omega

theorem scanInv_open (ts : List Bool) (k : Nat) (acc : List TimeRange)
    (hs : slotAt ts (k : Int) = some true) (inv : ScanInv ts k (-1) acc) :
    ScanInv ts (k + 1) (k : Int) acc where
  start_rng := Or.inr ⟨by omega, by push_cast; omega⟩
  run_free := by
    intro _ i h1 h2
    have : i = (k : Int) := by push_cast at h2; omega
    rw [this]; exact hs
  run_left := fun _ => inv.idle_left rfl
  idle_left := by intro h; omega
  acc_ok := by
    intro r hr
    obtain ⟨h1, h2, h3, h4⟩ := inv.acc_ok r hr
    exact ⟨h1, h2, by push_cast; omega, h4⟩
  acc_before := fun _ r hr => (inv.acc_ok r hr).2.2.1
  sorted := inv.sorted
  cover := by
    intro i h0 h1 hf
    by_cases hik : i < (k : Int)
    · rcases inv.cover i h0 hik hf with h | ⟨h, _⟩
      · exact Or.inl h
      · exact absurd rfl h
    · exact Or.inr ⟨by omega, by omega⟩

theorem scanInv_close (ts : List Bool) (k : Nat) (start : Int) (acc : List TimeRange)
    (hs : slotAt ts (k : Int) = some false) (hne : start ≠ -1) (inv : ScanInv ts k start acc) :
    ScanInv ts (k + 1) (-1) (acc ++ [⟨start, (k : Int)⟩]) where
  start_rng := Or.inl rfl
  run_free := fun h => absurd rfl h
  run_left := fun h => absurd rfl h
  idle_left := by
    intro _
    right
    have : ((k + 1 : Nat) : Int) - 1 = (k : Int) := by push_cast; omega
    rw [this]; exact hs
  acc_ok := by
    intro r hr
    rcases List.mem_append.mp hr with hr | hr
    · obtain ⟨h1, h2, h3, h4⟩ := inv.acc_ok r hr
      exact ⟨h1, h2, by push_cast; omega, h4⟩
    · rw [List.mem_singleton] at hr
      subst hr
      have hrng := inv.start_rng
      refine ⟨?_, ?_, ?_, fun i h1 h2 => inv.run_free hne i h1 h2, hs, inv.run_left hne⟩
      · show 0 ≤ start
        omega
      · show start < (k : Int)
        omega
      · show (k : Int) < ((k + 1 : Nat) : Int)
        push_cast; omega
  acc_before := fun h => absurd rfl h
  sorted := by
    rw [List.pairwise_append]
    refine ⟨inv.sorted, List.pairwise_singleton _ _, ?_⟩
    intro a ha b hb
    rw [List.mem_singleton] at hb
    subst hb
    exact inv.acc_before hne a ha
  cover := by
    intro i h0 h1 hf
    left
    by_cases hik : i < (k : Int)
    · rcases inv.cover i h0 hik hf with ⟨r, hr, h⟩ | ⟨_, h⟩
      · exact ⟨r, List.mem_append_left _ hr, h⟩
      · exact ⟨⟨start, (k : Int)⟩, by simp, h, hik⟩
    · have : i = (k : Int) := by push_cast at h1; omega
      rw [this, hs] at hf
      simp at hf

theorem scanInv_keep_free (ts : List Bool) (k : Nat) (start : Int) (acc : List TimeRange)
    (hs : slotAt ts (k : Int) = some true) (hne : start ≠ -1) (inv : ScanInv ts k start acc) :
    ScanInv ts (k + 1) start acc where
  start_rng := by
    have := inv.start_rng
    right
    push_cast; omega
  run_free := by
    intro _ i h1 h2
    by_cases hik : i < (k : Int)
    · exact inv.run_free hne i h1 hik
    · have : i = (k : Int) := by push_cast at h2; omega
      rw [this]; exact hs
  run_left := inv.run_left
  idle_left := fun h => absurd h hne
  acc_ok := by
    intro r hr
    obtain ⟨h1, h2, h3, h4⟩ := inv.acc_ok r hr
    exact ⟨h1, h2, by push_cast; omega, h4⟩
  acc_before := inv.acc_before
  sorted := inv.sorted
  cover := by
    intro i h0 h1 hf
    by_cases hik : i < (k : Int)
    · exact inv.cover i h0 hik hf
    · have := inv.start_rng
      exact Or.inr ⟨hne, by omega⟩

theorem scanInv_keep_busy (ts : List Bool) (k : Nat) (acc : List TimeRange)
    (hs : slotAt ts (k : Int) = some false) (inv : ScanInv ts k (-1) acc) :
    ScanInv ts (k + 1) (-1) acc where
  start_rng := Or.inl rfl
  run_free := fun h => absurd rfl h
  run_left := fun h => absurd rfl h
  idle_left := by
    intro _
    right
    have : ((k + 1 : Nat) : Int) - 1 = (k : Int) := by push_cast; omega
    rw [this]; exact hs
  acc_ok := by
    intro r hr
    obtain ⟨h1, h2, h3, h4⟩ := inv.acc_ok r hr
    exact ⟨h1, h2, by push_cast; omega, h4⟩
  acc_before := fun h => absurd rfl h
  sorted := inv.sorted
  cover := by
    intro i h0 h1 hf
    by_cases hik : i < (k : Int)
    · exact inv.cover i h0 hik hf
    · have : i = (k : Int) := by push_cast at h1; omega
      rw [this, hs] at hf
      simp at hf

theorem availableLoop_inv (ts : List Bool) (n : Nat) :
    ∀ (k : Nat) (start : Int) (acc : List TimeRange), k + n ≤ ts.length →
      ScanInv ts k start acc →
      ∃ start1 acc1, availableLoop ts n (k : Int) start acc = some (start1, acc1) ∧
        ScanInv ts (k + n) start1 acc1 := by
  induction n with
  | zero =>
    intro k start acc _ inv
    exact ⟨start, acc, rfl, inv⟩
  | succ n ih =>
    intro k start acc hk inv
    have hcast : ((k : Int) + 1) = ((k + 1 : Nat) : Int) := by push_cast; rfl
    have hidx : k + 1 + n = k + (n + 1) := by omega
    obtain ⟨b, hb⟩ := slotAt_isSome ts (k : Int) (by omega) (by omega)
    cases b with
    | true =>
      by_cases hst : start = -1
      · subst hst
        obtain ⟨s1, a1, h1, h2⟩ := ih (k + 1) (k : Int) acc (by omega) (scanInv_open ts k acc hb inv)
        refine ⟨s1, a1, ?_, hidx ▸ h2⟩
        simp only [availableLoop, hb, and_self, if_true, hcast, h1]
      · obtain ⟨s1, a1, h1, h2⟩ :=
          ih (k + 1) start acc (by omega) (scanInv_keep_free ts k start acc hb hst inv)
        refine ⟨s1, a1, ?_, hidx ▸ h2⟩
        simp only [availableLoop, hb]
        rw [if_neg (fun h => hst h.2), if_neg (fun h => Bool.noConfusion h.1), hcast, h1]
    | false =>
      by_cases hst : start = -1
      · subst hst
        obtain ⟨s1, a1, h1, h2⟩ :=
          ih (k + 1) (-1) acc (by omega) (scanInv_keep_busy ts k acc hb inv)
        refine ⟨s1, a1, ?_, hidx ▸ h2⟩
        simp only [availableLoop, hb]
        rw [if_neg (fun h => Bool.noConfusion h.1), if_neg (fun h => h.2 rfl), hcast, h1]
      · obtain ⟨s1, a1, h1, h2⟩ :=
          ih (k + 1) (-1) (acc ++ [⟨start, (k : Int)⟩]) (by omega)
            (scanInv_close ts k start acc hb hst inv)
        refine ⟨s1, a1, ?_, hidx ▸ h2⟩
        simp only [availableLoop, hb]
        rw [if_neg (fun h => Bool.noConfusion h.1), if_pos ⟨trivial, hst⟩, hcast, h1]

theorem slotAt_free_bounds (ts : List Bool) (i : Int) (b : Bool) (h : slotAt ts i = some b) :
    0 ≤ i ∧ i < (ts.length : Int) := by
  constructor
  · by_contra hc
    rw [slotAt_neg ts i (by omega)] at h
    simp at h
  · by_contra hc
    rw [slotAt_ge ts i (by omega)] at h
    simp at h

theorem scan_finish (ts : List Bool) (start : Int) (acc : List TimeRange)
    (inv : ScanInv ts ts.length start acc) :
    FreeRangesOf ts (if start ≠ -1 then acc ++ [⟨start, (ts.length : Int)⟩] else acc) := by
  by_cases hst : start = -1
  · rw [if_neg (by simpa using hst)]
    exact {
      valid := fun r hr => by
        obtain ⟨h1, h2, h3, _⟩ := inv.acc_ok r hr
        exact ⟨h1, h2, by omega⟩
      sorted := inv.sorted
      left_max := fun r hr => (inv.acc_ok r hr).2.2.2.2.2
      right_max := fun r hr => Or.inr (inv.acc_ok r hr).2.2.2.2.1
      cover := by
        intro i
        constructor
        · rintro ⟨r, hr, h1, h2⟩
          exact (inv.acc_ok r hr).2.2.2.1 i h1 h2
        · intro hf
          obtain ⟨h0, h1⟩ := slotAt_free_bounds ts i true hf
          rcases inv.cover i h0 h1 hf with h | ⟨h, _⟩
          · exact h
          · exact absurd hst h }
  · rw [if_pos hst]
    have hrng := inv.start_rng
    exact {
      valid := fun r hr => by
        rcases List.mem_append.mp hr with hr | hr
        · obtain ⟨h1, h2, h3, _⟩ := inv.acc_ok r hr
          exact ⟨h1, h2, by omega⟩
        · rw [List.mem_singleton] at hr
          subst hr
          refine ⟨?_, ?_, ?_⟩
          · show 0 ≤ start
            omega
          · show start < (ts.length : Int)
            omega
          · exact le_refl _
      sorted := by
        rw [List.pairwise_append]
        refine ⟨inv.sorted, List.pairwise_singleton _ _, ?_⟩
        intro a ha b hb
        rw [List.mem_singleton] at hb
        subst hb
        exact inv.acc_before hst a ha
      left_max := fun r hr => by
        rcases List.mem_append.mp hr with hr | hr
        · exact (inv.acc_ok r hr).2.2.2.2.2
        · rw [List.mem_singleton] at hr
          subst hr
          exact inv.run_left hst
      right_max := fun r hr => by
        rcases List.mem_append.mp hr with hr | hr
        · exact Or.inr (inv.acc_ok r hr).2.2.2.2.1
        · rw [List.mem_singleton] at hr
          subst hr
          exact Or.inl rfl
      cover := by
        intro i
        constructor
        · rintro ⟨r, hr, h1, h2⟩
          rcases List.mem_append.mp hr with hr | hr
          · exact (inv.acc_ok r hr).2.2.2.1 i h1 h2
          · rw [List.mem_singleton] at hr
            subst hr
            exact inv.run_free hst i h1 h2
        · intro hf
          obtain ⟨h0, h1⟩ := slotAt_free_bounds ts i true hf
          rcases inv.cover i h0 h1 hf with ⟨r, hr, h⟩ | ⟨_, h⟩
          · exact ⟨r, List.mem_append_left _ hr, h⟩
          · exact ⟨⟨start, (ts.length : Int)⟩, by simp, h, h1⟩ }

theorem Calendar.WF_length (c : Calendar) (hwf : c.WF) : c.timeslots.length = 48 := by
  unfold Calendar.WF SLOT_CAP at hwf
  omega

theorem Calendar.available_spec (c : Calendar) (hwf : c.WF) :
    ∃ rs, c.available = some rs ∧ FreeRangesOf c.timeslots rs := by
  have hlen := c.WF_length hwf
  obtain ⟨s1, a1, h1, h2⟩ :=
    availableLoop_inv c.timeslots 48 0 (-1) [] (by omega) (scanInv_init c.timeslots)
  have h48 : 0 + 48 = c.timeslots.length := by omega
  rw [h48] at h2
  have hfin := scan_finish c.timeslots s1 a1 h2
  have hcap : SLOT_CAP = (c.timeslots.length : Int) := by
    unfold Calendar.WF at hwf
    exact hwf.symm
  have htn : SLOT_CAP.toNat = 48 := rfl
  simp only [Nat.cast_zero] at h1
  by_cases hst : s1 = -1
  · rw [if_neg (by simpa using hst)] at hfin
    exact ⟨a1, by simp only [Calendar.available, htn, h1]; rw [if_neg (by simpa using hst)], hfin⟩
  · rw [if_pos hst] at hfin
    refine ⟨a1 ++ [⟨s1, SLOT_CAP⟩], ?_, ?_⟩
    · simp only [Calendar.available, htn, h1]
      rw [if_pos hst]
    · rw [hcap]
      exact hfin

/-! ## `SmartAssist::queryAvailable` -/

theorem queryLoop_eq (ts : List Bool) (n : Nat) : ∀ (i start : Int) (acc : List TimeRange),
    SmartAssist.queryLoop ts n i start acc = availableLoop ts n i start acc := by
  induction n with
  | zero => intro i start acc; rfl
  | succ n ih =>
    intro i start acc
    simp only [SmartAssist.queryLoop, availableLoop, ih]

theorem andSlots_nat (ts : List Bool) (n : Nat) : ∀ (common : List Bool) (k : Nat),
    k + n ≤ ts.length → k + n ≤ common.length →
    ∃ common1, SmartAssist.andSlots ts common n (k : Int) = some common1 ∧
      common1.length = common.length ∧
      ∀ j : Nat, common1[j]? =
        if k ≤ j ∧ j < k + n ∧ ts[j]? = some false then some false else common[j]? := by
  induction n with
  | zero =>
    intro common k _ _
    refine ⟨common, rfl, rfl, ?_⟩
    intro j
    have : ¬ (k ≤ j ∧ j < k + 0 ∧ ts[j]? = some false) := by omega
    rw [if_neg this]
  | succ n ih =>
    intro common k hk hc
    have hlt : k < ts.length := by omega
    have hltc : k < common.length := by omega
    have hcast : ((k : Int) + 1) = ((k + 1 : Nat) : Int) := by push_cast; rfl
    have hget : ts[k]? = some ts[k] := List.getElem?_eq_getElem hlt
    have hs : slotAt ts (k : Int) = some ts[k] := by rw [slotAt_natCast, hget]
    cases hv : ts[k] with
    | false =>
      rw [hv] at hs hget
      obtain ⟨c1, h1, h2, h3⟩ := ih (common.set k false) (k + 1) (by omega) (by simp; omega)
      refine ⟨c1, ?_, by simpa using h2, ?_⟩
      · simp only [SmartAssist.andSlots, hs, slotSet_natCast common k false hltc, hcast]
        exact h1
      · intro j
        rw [h3 j, List.getElem?_set]
        by_cases hj : k = j
        · subst hj
          have h4 : ¬ (k + 1 ≤ k ∧ k < k + 1 + n ∧ ts[k]? = some false) := by omega
          have h5 : k ≤ k ∧ k < k + (n + 1) ∧ ts[k]? = some false := ⟨le_refl k, by omega, hget⟩
          rw [if_neg h4, if_pos h5]
          simp [hltc]
        · by_cases hr : k + 1 ≤ j ∧ j < k + 1 + n ∧ ts[j]? = some false
          · have h5 : k ≤ j ∧ j < k + (n + 1) ∧ ts[j]? = some false :=
              ⟨by omega, by omega, hr.2.2⟩
            rw [if_pos hr, if_pos h5]
          · have h5 : ¬ (k ≤ j ∧ j < k + (n + 1) ∧ ts[j]? = some false) := by
              rintro ⟨a1, a2, a3⟩
              exact hr ⟨by omega, by omega, a3⟩
            rw [if_neg hr, if_neg h5, if_neg hj]
    | true =>
      rw [hv] at hs hget
      obtain ⟨c1, h1, h2, h3⟩ := ih common (k + 1) (by omega) (by omega)
      refine ⟨c1, ?_, h2, ?_⟩
      · simp only [SmartAssist.andSlots, hs, hcast]
        exact h1
      · intro j
        rw [h3 j]
        by_cases hr : k + 1 ≤ j ∧ j < k + 1 + n ∧ ts[j]? = some false
        · have h5 : k ≤ j ∧ j < k + (n + 1) ∧ ts[j]? = some false :=
            ⟨by omega, by omega, hr.2.2⟩
          rw [if_pos hr, if_pos h5]
        · have h5 : ¬ (k ≤ j ∧ j < k + (n + 1) ∧ ts[j]? = some false) := by
            rintro ⟨a1, a2, a3⟩
            by_cases hj : k = j
            · subst hj
              rw [hget] at a3
              simp at a3
            · exact hr ⟨by omega, by omega, a3⟩
          rw [if_neg hr, if_neg h5]

theorem andSlots_spec (ts common : List Bool) (hts : ts.length = 48) (hc : common.length = 48) :
    ∃ common1, SmartAssist.andSlots ts common 48 0 = some common1 ∧ common1.length = 48 ∧
      ∀ i : Int, slotAt common1 i = some true ↔
        (slotAt common i = some true ∧ slotAt ts i = some true) := by
  obtain ⟨c1, h1, h2, h3⟩ := andSlots_nat ts 48 common 0 (by omega) (by omega)
  simp only [Nat.cast_zero] at h1
  refine ⟨c1, h1, by omega, ?_⟩
  intro i
  by_cases hi : 0 ≤ i
  · obtain ⟨j, rfl⟩ := Int.eq_ofNat_of_zero_le hi
    simp only [slotAt_natCast]
    rw [h3 j]
    by_cases hr : 0 ≤ j ∧ j < 0 + 48 ∧ ts[j]? = some false
    · rw [if_pos hr, hr.2.2]
      simp
    · rw [if_neg hr]
      constructor
      · intro hcj
        refine ⟨hcj, ?_⟩
        have hj : j < 48 := by
          by_contra hge
          rw [List.getElem?_eq_none (by omega)] at hcj
          simp at hcj
        have hjt : j < ts.length := by omega
        rw [List.getElem?_eq_getElem hjt]
        cases hv : ts[j] with
        | true => rfl
        | false =>
          exfalso
          apply hr
          refine ⟨by omega, by omega, ?_⟩
          rw [List.getElem?_eq_getElem hjt, hv]
      · exact fun h => h.1
  · rw [slotAt_neg c1 i (by omega), slotAt_neg common i (by omega)]
    simp

theorem andMembers_spec : ∀ (ms : List (String × Calendar)) (common : List Bool),
    (∀ m ∈ ms, m.2.WF) → common.length = 48 →
    ∃ common1, SmartAssist.andMembers ms common = some common1 ∧ common1.length = 48 ∧
      ∀ i : Int, slotAt common1 i = some true ↔
        (slotAt common i = some true ∧ ∀ m ∈ ms, m.2.free i) := by
  intro ms
  induction ms with
  | nil =>
    intro common _ hc
    exact ⟨common, rfl, hc, fun i => by simp⟩
  | cons x rest ih =>
    intro common hwf hc
    obtain ⟨c1, h1, h2, h3⟩ :=
      andSlots_spec x.2.timeslots common (x.2.WF_length (hwf x (List.mem_cons_self _ _))) hc
    obtain ⟨c2, h4, h5, h6⟩ := ih c1 (fun m hm => hwf m (List.mem_cons_of_mem _ hm)) h2
    refine ⟨c2, by simp only [SmartAssist.andMembers, h1, h4], h5, ?_⟩
    intro i
    rw [h6 i, h3 i]
    simp only [List.mem_cons, forall_eq_or_imp, Calendar.free]
    tauto

theorem slotAt_replicate_true (i : Int) (h0 : 0 ≤ i) (h1 : i < 48) :
    slotAt (List.replicate 48 true) i = some true := by
  obtain ⟨j, rfl⟩ := Int.eq_ofNat_of_zero_le h0
  have hj : j < 48 := by omega
  rw [slotAt_natCast, List.getElem?_replicate, if_pos hj]

theorem queryAvailable_spec (team : Team) (hwf : ∀ m ∈ team.members, m.2.WF) :
    ∃ common rs, SmartAssist.andMembers team.members (List.replicate 48 true) = some common ∧
      common.length = 48 ∧
      (∀ i : Int, 0 ≤ i → i < 48 →
        (slotAt common i = some true ↔ ∀ m ∈ team.members, m.2.free i)) ∧
      SmartAssist.queryAvailable team = some rs ∧ FreeRangesOf common rs := by
  obtain ⟨common, h1, h2, h3⟩ := andMembers_spec team.members (List.replicate 48 true) hwf (by simp)
  obtain ⟨s1, a1, h4, h5⟩ := availableLoop_inv common 48 0 (-1) [] (by omega) (scanInv_init common)
  have h48 : 0 + 48 = common.length := by omega
  rw [h48] at h5
  have hfin := scan_finish common s1 a1 h5
  simp only [Nat.cast_zero] at h4
  have hlen : (common.length : Int) = 48 := by omega
  rw [hlen] at hfin
  refine ⟨common, _, h1, h2, ?_, ?_, hfin⟩
  · intro i h0 h48
    rw [h3 i]
    simp only [slotAt_replicate_true i h0 h48, true_and]
  · simp only [SmartAssist.queryAvailable, Team.getAllMembers, h1, queryLoop_eq, h4]
    by_cases hst : s1 = -1
    · rw [if_neg (by simpa using hst), if_neg (by simpa using hst)]
    · rw [if_pos hst, if_pos hst]

/-! ## `queryAvailable` against `available` -/

theorem slots_eq_of_free_iff (a b : List Bool) (ha : a.length = 48) (hb : b.length = 48)
    (h : ∀ i : Int, 0 ≤ i → i < 48 → (slotAt a i = some true ↔ slotAt b i = some true)) :
    a = b := by
  apply slotAt_ext
  intro i
  by_cases h0 : 0 ≤ i
  · by_cases h1 : i < 48
    · obtain ⟨x, hx⟩ := slotAt_isSome a i h0 (by omega)
      obtain ⟨y, hy⟩ := slotAt_isSome b i h0 (by omega)
      have hi := h i h0 h1
      rw [hx, hy] at hi ⊢
      cases x <;> cases y <;> simp at hi ⊢
    · rw [slotAt_ge a i (by omega), slotAt_ge b i (by omega)]
  · rw [slotAt_neg a i (by omega), slotAt_neg b i (by omega)]

theorem commonSchedule_length (team : Team) : (commonSchedule team).timeslots.length = 48 := by
  simp [commonSchedule]

theorem commonSchedule_free (team : Team) (i : Int) (h0 : 0 ≤ i) (h1 : i < 48) :
    slotAt (commonSchedule team).timeslots i = some true ↔ ∀ m ∈ team.members, m.2.free i := by
  obtain ⟨j, rfl⟩ := Int.eq_ofNat_of_zero_le h0
  have hj : j < 48 := by omega
  rw [slotAt_natCast]
  simp only [commonSchedule, List.getElem?_map, List.getElem?_range hj, Option.map_some',
    Option.some.injEq, List.all_eq_true, decide_eq_true_eq]

theorem queryAvailable_eq_available (team : Team) (common : List Bool)
    (h : SmartAssist.andMembers team.members (List.replicate 48 true) = some common) :
    SmartAssist.queryAvailable team = Calendar.available ⟨common⟩ := by
  simp only [SmartAssist.queryAvailable, Team.getAllMembers, h, queryLoop_eq, Calendar.available]
  rfl

/-! ## Consequences for `book` -/

theorem book_true_of_all_free (team : Team) (tr : TimeRange) (hwf : team.WF)
    (h : ∀ m ∈ team.members, tr.valid ∧ ∀ i : Int, tr.contains i → m.2.free i) :
    ∃ ms1, SmartAssist.book team tr = some (true, ⟨ms1⟩) ∧
      List.Forall₂ (occupiedTo tr) team.members ms1 := by
  rcases book_spec team tr hwf with hok | ⟨_, m, hm, hfail⟩
  · exact hok
  · exfalso
    obtain ⟨b, c1, ho, _, hb, _, _⟩ := m.2.occupy_spec tr (hwf.2 m hm)
    have hbt : b = true := hb.mpr (h m hm)
    rw [ho, hbt] at hfail
    simp at hfail

theorem book_false_of_blocked (team : Team) (tr : TimeRange) (hwf : team.WF)
    (h : ∃ m ∈ team.members, ¬ (tr.valid ∧ ∀ i : Int, tr.contains i → m.2.free i)) :
    SmartAssist.book team tr = some (false, team) := by
  rcases book_spec team tr hwf with ⟨ms1, _, h2⟩ | ⟨h1, _⟩
  · exfalso
    obtain ⟨m, hm, hnot⟩ := h
    obtain ⟨c1, hc1⟩ := occupiedTo_all tr _ _ h2 m hm
    obtain ⟨b, c2, ho, _, hb, _, _⟩ := m.2.occupy_spec tr (hwf.2 m hm)
    rw [ho] at hc1
    simp only [Option.some.injEq, Prod.mk.injEq] at hc1
    exact hnot (hb.mp hc1.1)
  · exact h1

theorem lookup_eq_none_iff (k : String) (l : List (String × Calendar)) :
    l.lookup k = none ↔ k ∉ l.map Prod.fst := by
  induction l with
  | nil => simp
  | cons x l ih =>
    obtain ⟨k1, v1⟩ := x
    simp only [List.lookup_cons, List.map_cons, List.mem_cons, not_or]
    cases hb : (k == k1) with
    | true =>
      have : k = k1 := by simpa using hb
      simp [this]
    | false =>
      have : ¬ k = k1 := by simpa using hb
      simp [this, ih]

theorem find_key_eq_none_iff (k : String) (l : List (String × Calendar)) :
    l.find? (fun m => m.1 == k) = none ↔ k ∉ l.map Prod.fst := by
  rw [List.find?_eq_none]
  simp only [beq_iff_eq, List.mem_map, not_exists, not_and]

theorem names_map_set (k : String) (c : Calendar) (l : List (String × Calendar)) :
    (l.map (fun m => if m.1 = k then (m.1, c) else m)).map Prod.fst = l.map Prod.fst := by
  induction l with
  | nil => rfl
  | cons x l ih =>
    simp only [List.map_cons, ih]
    by_cases h : x.1 = k
    · rw [if_pos h]
    · rw [if_neg h]

theorem lookup_map_set_self (k : String) (c : Calendar) (l : List (String × Calendar))
    (h : k ∈ l.map Prod.fst) :
    (l.map (fun m => if m.1 = k then (m.1, c) else m)).lookup k = some c := by
  induction l with
  | nil => simp at h
  | cons x l ih =>
    obtain ⟨k1, v1⟩ := x
    by_cases hk : k1 = k
    · subst hk
      simp [List.lookup_cons]
    · have hne : (k == k1) = false := by
        simp only [beq_eq_false_iff_ne, ne_eq]
        exact fun e => hk e.symm
      simp only [List.map_cons, List.mem_cons] at h
      have hmem : k ∈ l.map Prod.fst := by
        rcases h with h | h
        · exact absurd h.symm hk
        · exact h
      simp only [List.map_cons, if_neg hk, List.lookup_cons, hne]
      exact ih hmem

theorem lookup_map_set_other (k other : String) (c : Calendar) (l : List (String × Calendar))
    (h : other ≠ k) :
    (l.map (fun m => if m.1 = k then (m.1, c) else m)).lookup other = l.lookup other := by
  induction l with
  | nil => rfl
  | cons x l ih =>
    obtain ⟨k1, v1⟩ := x
    by_cases hk : k1 = k
    · subst hk
      have hne : (other == k1) = false := by simpa using h
      simp only [List.map_cons, if_true, List.lookup_cons, hne]
      exact ih
    · simp only [List.map_cons, if_neg hk, List.lookup_cons, ih]

theorem lookup_append_single (k other : String) (c : Calendar) (l : List (String × Calendar)) :
    (l ++ [(k, c)]).lookup other =
      match l.lookup other with
      | some v => some v
      | none => if other = k then some c else none := by
  induction l with
  | nil =>
    by_cases h : other = k
    · simp [List.lookup_cons, h]
    · have hne : (other == k) = false := by simpa using h
      simp [List.lookup_cons, hne, h]
  | cons x l ih =>
    obtain ⟨k1, v1⟩ := x
    simp only [List.cons_append, List.lookup_cons]
    cases hb : (other == k1) with
    | true => rfl
    | false => exact ih

theorem Team.addWith_wf (t : Team) (name : String) (c : Calendar) (hwf : t.WF) (hc : c.WF) :
    (t.addWith name c).WF := by
  unfold Team.addWith
  cases hf : t.members.find? (fun m => m.1 == name) with
  | some x =>
    constructor
    · show ((t.members.map _).map Prod.fst).Nodup
      rw [names_map_set]
      exact hwf.1
    · intro m hm
      simp only [Team.setCalendar, List.mem_map] at hm
      obtain ⟨y, hy, rfl⟩ := hm
      by_cases h : y.1 = name
      · rw [if_pos h]
        exact hc
      · rw [if_neg h]
        exact hwf.2 y hy
  | none =>
    have hnot := (find_key_eq_none_iff name t.members).mp hf
    constructor
    · show ((t.members ++ [(name, c)]).map Prod.fst).Nodup
      rw [List.map_append, List.nodup_append]
      refine ⟨hwf.1, by simp, ?_⟩
      intro a ha hb
      simp only [List.map_cons, List.map_nil, List.mem_singleton] at hb
      subst hb
      exact hnot ha
    · intro m hm
      rcases List.mem_append.mp hm with hm | hm
      · exact hwf.2 m hm
      · rw [List.mem_singleton] at hm
        subst hm
        exact hc

theorem Team.addWith_get_self (t : Team) (name : String) (c : Calendar) :
    (t.addWith name c).getCalendar name = some c := by
  unfold Team.addWith
  cases hf : t.members.find? (fun m => m.1 == name) with
  | some x =>
    have hmem : name ∈ t.members.map Prod.fst := by
      by_contra hnot
      rw [(find_key_eq_none_iff name t.members).mpr hnot] at hf
      simp at hf
    exact lookup_map_set_self name c t.members hmem
  | none =>
    have hnot := (find_key_eq_none_iff name t.members).mp hf
    show (t.members ++ [(name, c)]).lookup name = some c
    rw [lookup_append_single, (lookup_eq_none_iff name t.members).mpr hnot]
    simp

theorem Team.addWith_get_other (t : Team) (name other : String) (c : Calendar)
    (h : other ≠ name) : (t.addWith name c).getCalendar other = t.getCalendar other := by
  unfold Team.addWith
  cases hf : t.members.find? (fun m => m.1 == name) with
  | some x => exact lookup_map_set_other name other c t.members h
  | none =>
    show (t.members ++ [(name, c)]).lookup other = t.members.lookup other
    rw [lookup_append_single]
    cases hl : t.members.lookup other with
    | some v => rfl
    | none => simp [h]

theorem eraseP_key_spec (k : String) : ∀ (l : List (String × Calendar)),
    (l.map Prod.fst).Nodup →
    k ∉ (l.eraseP (fun m => m.1 == k)).map Prod.fst ∧
    ∀ other, other ≠ k → (l.eraseP (fun m => m.1 == k)).lookup other = l.lookup other := by
  intro l
  induction l with
  | nil => intro _; simp
  | cons x l ih =>
    intro hnd
    obtain ⟨k1, v1⟩ := x
    simp only [List.map_cons, List.nodup_cons] at hnd
    by_cases hk : k1 = k
    · subst hk
      have he : List.eraseP (fun m => m.1 == k1) ((k1, v1) :: l) = l := by
        simp [List.eraseP_cons]
      rw [he]
      refine ⟨hnd.1, ?_⟩
      intro other ho
      have hne : (other == k1) = false := by simpa using ho
      simp only [List.lookup_cons, hne]
    · have he : List.eraseP (fun m => m.1 == k) ((k1, v1) :: l) =
          (k1, v1) :: List.eraseP (fun m => m.1 == k) l := by
        simp [List.eraseP_cons, hk]
      rw [he]
      obtain ⟨ih1, ih2⟩ := ih hnd.2
      refine ⟨?_, ?_⟩
      · simp only [List.map_cons, List.mem_cons, not_or]
        exact ⟨fun e => hk e.symm, ih1⟩
      · intro other ho
        simp only [List.lookup_cons]
        cases hb : (other == k1) with
        | true => rfl
        | false => exact ih2 other ho

theorem Team.remove_wf (t : Team) (name : String) (hwf : t.WF) : (t.remove name).WF := by
  unfold Team.remove
  cases hf : t.members.find? (fun m => m.1 == name) with
  | none => exact hwf
  | some x =>
    constructor
    · exact hwf.1.sublist ((List.eraseP_sublist t.members).map Prod.fst)
    · intro m hm
      exact hwf.2 m (List.mem_of_mem_eraseP hm)

/-! ## Slot indices touched by `occupy` and `release` -/

theorem fillWrites_bounds (n : Nat) : ∀ (a i : Int), i ∈ fillWrites n a → a ≤ i ∧ i < a + n := by
  induction n with
  | zero => intro a i h; simp [fillWrites] at h
  | succ n ih =>
    intro a i h
    simp only [fillWrites, List.mem_cons] at h
    rcases h with rfl | h
    · constructor
      · exact le_refl _
      · push_cast; omega
    · have := ih (a + 1) i h
      push_cast; omega

theorem occupyCheckReads_bounds (ts : List Bool) (n : Nat) :
    ∀ (a i : Int), i ∈ occupyCheckReads ts n a → a ≤ i ∧ i < a + n := by
  induction n with
  | zero => intro a i h; simp [occupyCheckReads] at h
  | succ n ih =>
    intro a i h
    have hself : a ≤ a ∧ a < a + ((n + 1 : Nat) : Int) := by
      constructor
      · exact le_refl _
      · push_cast; omega
    simp only [occupyCheckReads] at h
    split at h
    · rcases List.mem_cons.mp h with rfl | h
      · exact hself
      · have := ih (a + 1) i h
        push_cast; omega
    · rw [List.mem_singleton] at h
      subst h
      exact hself

/-! ## Calls that release nothing keep occupied slots occupied -/

/-- C1: `book` on a well-formed team always returns, and when it returns false the team after
the call is the team before the call: every member's 48 slots are restored exactly. -/
theorem book_failure_restores (team : Team) (tr : TimeRange) (hwf : team.WF) :
    ∃ b team1, SmartAssist.book team tr = some (b, team1) ∧ (b = false → team1 = team) := by
  rcases book_spec team tr hwf with ⟨ms1, h1, _⟩ | ⟨h1, _⟩
  · exact ⟨true, ⟨ms1⟩, h1, by simp⟩
  · exact ⟨false, team, h1, fun _ => rfl⟩

/-- Witness for C1 on the team of `main` with the range [20,23): tom is occupied first, lily
blocks, tom is rolled back. -/
theorem book_failure_restores_witness :
    exampleTeam.WF ∧ ∃ b team1, SmartAssist.book exampleTeam ⟨20, 23⟩ = some (b, team1) ∧
      (b = false → team1 = exampleTeam) :=
  ⟨by decide, book_failure_restores exampleTeam ⟨20, 23⟩ (by decide)⟩

/-- C2: when `book` returns true, the team keeps its members, and for every member each slot of
the range is occupied afterwards while each slot outside the range keeps its value. -/
theorem book_success_commits (team team1 : Team) (tr : TimeRange) (hwf : team.WF)
    (h : SmartAssist.book team tr = some (true, team1)) :
    team1.members.map Prod.fst = team.members.map Prod.fst ∧
    ∀ name c, team.getCalendar name = some c →
      ∃ c1, team1.getCalendar name = some c1 ∧
        (∀ i : Int, tr.contains i → c1.occupied i) ∧
        (∀ i : Int, ¬ tr.contains i → slotAt c1.timeslots i = slotAt c.timeslots i) := by
  rcases book_spec team tr hwf with ⟨ms1, h1, h2⟩ | ⟨h1, _⟩
  · rw [h1] at h
    simp only [Option.some.injEq, Prod.mk.injEq, true_and] at h
    subst h
    refine ⟨occupiedTo_names tr _ _ h2, ?_⟩
    intro name c hc
    obtain ⟨c1, hl, ho⟩ := occupiedTo_lookup tr _ _ h2 name c hc
    refine ⟨c1, hl, ?_⟩
    have hcwf : c.WF := by
      obtain ⟨_, hcal⟩ := hwf
      have hmem : (name, c) ∈ team.members := by
        exact mem_of_lookup name c team.members hc
      exact hcal _ hmem
    obtain ⟨b, c2, ho2, _, _, _, hs⟩ := c.occupy_spec tr hcwf
    rw [ho] at ho2
    simp only [Option.some.injEq, Prod.mk.injEq] at ho2
    obtain ⟨rfl, rfl⟩ := ho2
    constructor
    · intro i hi
      unfold Calendar.occupied
      rw [hs rfl i, if_pos hi]
    · intro i hi
      rw [hs rfl i, if_neg hi]
  · rw [h1] at h
    simp at h

/-- Witness for C2: booking [0,22) on the team of `main`. -/
theorem book_success_commits_witness :
    exampleTeamBooked.members.map Prod.fst = exampleTeam.members.map Prod.fst ∧
    ∀ name c, exampleTeam.getCalendar name = some c →
      ∃ c1, exampleTeamBooked.getCalendar name = some c1 ∧
        (∀ i : Int, TimeRange.contains ⟨0, 22⟩ i → c1.occupied i) ∧
        (∀ i : Int, ¬ TimeRange.contains ⟨0, 22⟩ i →
          slotAt c1.timeslots i = slotAt c.timeslots i) :=
  book_success_commits exampleTeam exampleTeamBooked ⟨0, 22⟩ (by decide) (by decide)

/-- C3: `book` on a well-formed team always returns, and its result is true exactly when
`occupy` with that range would succeed on every member as it was before the call, that is when
for every member the range is valid and all its slots are free; on the empty team with a valid
range the result is true. -/
theorem book_result_iff (team : Team) (tr : TimeRange) (hwf : team.WF) :
    (∃ b team1, SmartAssist.book team tr = some (b, team1) ∧
      (b = true ↔ ∀ m ∈ team.members, ∃ c1, m.2.occupy tr = some (true, c1)) ∧
      (b = true ↔ ∀ m ∈ team.members, tr.valid ∧ ∀ i : Int, tr.contains i → m.2.free i)) ∧
    (tr.valid → SmartAssist.book ⟨[]⟩ tr = some (true, ⟨[]⟩)) := by
  refine ⟨?_, fun _ => rfl⟩
  have key : ∀ m ∈ team.members,
      ((∃ c1, m.2.occupy tr = some (true, c1)) ↔
        (tr.valid ∧ ∀ i : Int, tr.contains i → m.2.free i)) := by
    intro m hm
    obtain ⟨b, c1, ho, _, hb, _, _⟩ := m.2.occupy_spec tr (hwf.2 m hm)
    rw [← hb, ho]
    constructor
    · rintro ⟨c2, h⟩
      simp only [Option.some.injEq, Prod.mk.injEq] at h
      exact h.1
    · intro h
      exact ⟨c1, by rw [h]⟩
  rcases book_spec team tr hwf with ⟨ms1, h1, h2⟩ | ⟨h1, m, hm, hfail⟩
  · have hall := occupiedTo_all tr _ _ h2
    refine ⟨true, ⟨ms1⟩, h1, ?_, ?_⟩
    · simp only [true_iff]
      exact hall
    · simp only [true_iff]
      intro m hm
      exact (key m hm).mp (hall m hm)
  · have hnot : ¬ ∃ c1, m.2.occupy tr = some (true, c1) := by
      rintro ⟨c1, h⟩
      rw [hfail] at h
      simp at h
    refine ⟨false, team, h1, ?_, ?_⟩
    · simp only [Bool.false_eq_true, false_iff]
      intro hall
      exact hnot (hall m hm)
    · simp only [Bool.false_eq_true, false_iff]
      intro hall
      exact hnot ((key m hm).mpr (hall m hm))

/-- Witness for C3 on the team of `main` with the range [0,22). -/
theorem book_result_iff_witness :
    exampleTeam.WF ∧
    ((∃ b team1, SmartAssist.book exampleTeam ⟨0, 22⟩ = some (b, team1) ∧
      (b = true ↔ ∀ m ∈ exampleTeam.members, ∃ c1, m.2.occupy ⟨0, 22⟩ = some (true, c1)) ∧
      (b = true ↔ ∀ m ∈ exampleTeam.members,
        TimeRange.valid ⟨0, 22⟩ ∧ ∀ i : Int, TimeRange.contains ⟨0, 22⟩ i → m.2.free i)) ∧
    (TimeRange.valid ⟨0, 22⟩ → SmartAssist.book ⟨[]⟩ ⟨0, 22⟩ = some (true, ⟨[]⟩))) :=
  ⟨by decide, book_result_iff exampleTeam ⟨0, 22⟩ (by decide)⟩

/-- C4: on a well-formed calendar, `occupy` with a valid range whose slots are all free returns
true; afterwards every slot of the range is occupied and every other slot keeps its value. -/
theorem occupy_success (c : Calendar) (tr : TimeRange) (hwf : c.WF) (hv : tr.valid)
    (hfree : ∀ i : Int, tr.contains i → c.free i) :
    ∃ c1, c.occupy tr = some (true, c1) ∧ c1.WF ∧
      (∀ i : Int, tr.contains i → c1.occupied i) ∧
      (∀ i : Int, ¬ tr.contains i → slotAt c1.timeslots i = slotAt c.timeslots i) := by
  obtain ⟨b, c1, ho, hwf1, hb, _, hs⟩ := c.occupy_spec tr hwf
  have hbt : b = true := hb.mpr ⟨hv, hfree⟩
  subst hbt
  refine ⟨c1, ho, hwf1, ?_, ?_⟩
  · intro i hi
    unfold Calendar.occupied
    rw [hs rfl i, if_pos hi]
  · intro i hi
    rw [hs rfl i, if_neg hi]

/-- Witness for C4: a fresh calendar and the range [24,26). -/
theorem occupy_success_witness :
    Calendar.new.WF ∧ TimeRange.valid ⟨24, 26⟩ ∧
    ∃ c1, Calendar.new.occupy ⟨24, 26⟩ = some (true, c1) ∧ c1.WF ∧
      (∀ i : Int, TimeRange.contains ⟨24, 26⟩ i → c1.occupied i) ∧
      (∀ i : Int, ¬ TimeRange.contains ⟨24, 26⟩ i →
        slotAt c1.timeslots i = slotAt Calendar.new.timeslots i) :=
  ⟨by decide, by decide, occupy_success Calendar.new ⟨24, 26⟩ (by decide) (by decide)
    (by
      intro i hi
      obtain ⟨h1, h2⟩ := hi
      simp only at h1 h2
      have : i = 24 ∨ i = 25 := by omega
      rcases this with rfl | rfl <;> decide)⟩

/-- C5: on a well-formed calendar, `occupy` with an invalid range, or with a range containing an
occupied slot, returns false and leaves the calendar exactly as it was. -/
theorem occupy_failure (c : Calendar) (tr : TimeRange) (hwf : c.WF)
    (h : (tr.from_ < 0 ∨ tr.to_ > SLOT_CAP ∨ tr.from_ ≥ tr.to_) ∨
      ∃ i : Int, tr.contains i ∧ c.occupied i) :
    c.occupy tr = some (false, c) := by
  obtain ⟨b, c1, ho, _, hb, hfalse, _⟩ := c.occupy_spec tr hwf
  have hbf : b = false := by
    cases b with
    | false => rfl
    | true =>
      exfalso
      obtain ⟨hv, hall⟩ := hb.mp rfl
      rcases h with h | ⟨i, hi, hocc⟩
      · unfold TimeRange.valid at hv
        omega
      · have hf := hall i hi
        unfold Calendar.free at hf
        unfold Calendar.occupied at hocc
        rw [hf] at hocc
        simp at hocc
  subst hbf
  rw [ho, hfalse rfl]

/-- Witness for C5: lily is busy on [22,28), so [20,23) is refused although slots 20 and 21
are free. -/
theorem occupy_failure_witness :
    lilyCalendar.WF ∧ lilyCalendar.occupy ⟨20, 23⟩ = some (false, lilyCalendar) :=
  ⟨by decide, occupy_failure lilyCalendar ⟨20, 23⟩ (by decide)
    (Or.inr ⟨22, by decide, by decide⟩)⟩

/-- Counterexample for C6: slot 0 is occupied and the range is [0,1); `occupy` fails and changes
nothing, then `release` frees slot 0, so the calendar differs from its state before. -/
theorem occupy_release_not_restoring :
    busyFirst.WF ∧ TimeRange.valid ⟨0, 1⟩ ∧
    occupyThenRelease busyFirst ⟨0, 1⟩ = some (false, Calendar.new) ∧
    Calendar.new ≠ busyFirst := by
  decide

/-- C6 (amended): on a well-formed calendar and a valid range whose slots are all free,
`occupy` returns true and the following `release` of the same range gives back exactly the
calendar before the `occupy`. -/
theorem occupy_release_roundtrip (c : Calendar) (tr : TimeRange) (hwf : c.WF) (hv : tr.valid)
    (hfree : ∀ i : Int, tr.contains i → c.free i) :
    occupyThenRelease c tr = some (true, c) := by
  obtain ⟨b, c1, ho, _, hb, _, _⟩ := c.occupy_spec tr hwf
  have hbt : b = true := hb.mpr ⟨hv, hfree⟩
  subst hbt
  have hrel := Calendar.release_after_occupy c c1 tr hwf ho
  simp only [occupyThenRelease, ho, hrel]

/-- Witness for C6 (amended): joe is busy on [24,26) and [26,28) is free. -/
theorem occupy_release_roundtrip_witness :
    joeCalendar.WF ∧ TimeRange.valid ⟨26, 28⟩ ∧
    occupyThenRelease joeCalendar ⟨26, 28⟩ = some (true, joeCalendar) :=
  ⟨by decide, by decide, occupy_release_roundtrip joeCalendar ⟨26, 28⟩ (by decide) (by decide)
    (by
      intro i hi
      obtain ⟨h1, h2⟩ := hi
      simp only at h1 h2
      have : i = 26 ∨ i = 27 := by omega
      rcases this with rfl | rfl <;> decide)⟩

/-- C7: on a well-formed calendar `release` always returns; with `from < 0` or `to > 48` it
changes nothing; otherwise every slot of the range is free afterwards, whatever it held, and
every other slot keeps its value. -/
theorem release_semantics (c : Calendar) (tr : TimeRange) (hwf : c.WF) :
    ∃ c1, c.release tr = some c1 ∧
      ((tr.from_ < 0 ∨ tr.to_ > SLOT_CAP) → c1 = c) ∧
      (¬ (tr.from_ < 0 ∨ tr.to_ > SLOT_CAP) →
        (∀ i : Int, tr.contains i → c1.free i) ∧
        (∀ i : Int, ¬ tr.contains i → slotAt c1.timeslots i = slotAt c.timeslots i)) := by
  obtain ⟨c1, hr, _, h1, h2⟩ := c.release_spec tr hwf
  refine ⟨c1, hr, h1, ?_⟩
  intro hg
  constructor
  · intro i hi
    unfold Calendar.free
    rw [h2 hg i, if_pos hi]
  · intro i hi
    rw [h2 hg i, if_neg hi]

/-- Witness for C7: releasing [20,25) on lily, whose slots 20, 21 are free and 22..24 occupied. -/
theorem release_semantics_witness :
    lilyCalendar.WF ∧
    ∃ c1, lilyCalendar.release ⟨20, 25⟩ = some c1 ∧
      (((20 : Int) < 0 ∨ (25 : Int) > SLOT_CAP) → c1 = lilyCalendar) ∧
      (¬ ((20 : Int) < 0 ∨ (25 : Int) > SLOT_CAP) →
        (∀ i : Int, TimeRange.contains ⟨20, 25⟩ i → c1.free i) ∧
        (∀ i : Int, ¬ TimeRange.contains ⟨20, 25⟩ i →
          slotAt c1.timeslots i = slotAt lilyCalendar.timeslots i)) :=
  ⟨by decide, release_semantics lilyCalendar ⟨20, 25⟩ (by decide)⟩

/-- C8: on a well-formed calendar `available` returns a list of ranges such that a slot index
lies inside some returned range exactly when that slot is free; so each slot of the grid is
either inside a returned range or occupied, never both. -/
theorem available_coverage (c : Calendar) (hwf : c.WF) :
    ∃ rs, c.available = some rs ∧
      (∀ i : Int, (∃ r ∈ rs, r.contains i) ↔ c.free i) ∧
      (∀ i : Int, 0 ≤ i → i < SLOT_CAP →
        ((∃ r ∈ rs, r.contains i) ∧ ¬ c.occupied i) ∨
        ((¬ ∃ r ∈ rs, r.contains i) ∧ c.occupied i)) := by
  obtain ⟨rs, h1, h2⟩ := c.available_spec hwf
  refine ⟨rs, h1, h2.cover, ?_⟩
  intro i h0 h48
  have hlen : (c.timeslots.length : Int) = SLOT_CAP := hwf
  obtain ⟨b, hb⟩ := slotAt_isSome c.timeslots i h0 (by omega)
  rw [h2.cover i]
  unfold Calendar.occupied
  rw [hb]
  cases b <;> simp

/-- Witness for C8: the calendar of lily. -/
theorem available_coverage_witness :
    lilyCalendar.WF ∧
    ∃ rs, lilyCalendar.available = some rs ∧
      (∀ i : Int, (∃ r ∈ rs, r.contains i) ↔ lilyCalendar.free i) ∧
      (∀ i : Int, 0 ≤ i → i < SLOT_CAP →
        ((∃ r ∈ rs, r.contains i) ∧ ¬ lilyCalendar.occupied i) ∨
        ((¬ ∃ r ∈ rs, r.contains i) ∧ lilyCalendar.occupied i)) :=
  ⟨by decide, available_coverage lilyCalendar (by decide)⟩

/-- C9: on a well-formed calendar `available` returns valid ranges, in strictly ascending order
with at least one slot between consecutive ranges (hence disjoint), and maximal: the slot just
before each range and the slot at its end are occupied whenever they are inside the grid. -/
theorem available_shape (c : Calendar) (hwf : c.WF) :
    ∃ rs, c.available = some rs ∧
      (∀ r ∈ rs, r.valid) ∧
      rs.Pairwise (fun a b => a.from_ < b.from_ ∧ a.to_ < b.from_ ∧
        ∀ i : Int, ¬ (a.contains i ∧ b.contains i)) ∧
      (∀ r ∈ rs, r.from_ = 0 ∨ c.occupied (r.from_ - 1)) ∧
      (∀ r ∈ rs, r.to_ = SLOT_CAP ∨ c.occupied r.to_) := by
  obtain ⟨rs, h1, h2⟩ := c.available_spec hwf
  have hlen : (c.timeslots.length : Int) = SLOT_CAP := hwf
  refine ⟨rs, h1, ?_, ?_, h2.left_max, ?_⟩
  · intro r hr
    have := h2.valid r hr
    rw [hlen] at this
    exact this
  · refine List.Pairwise.imp_of_mem ?_ h2.sorted
    intro a b ha _ hab
    have hva := h2.valid a ha
    refine ⟨by omega, hab, ?_⟩
    rintro i ⟨⟨_, h3⟩, ⟨h4, _⟩⟩
    omega
  · intro r hr
    have := h2.right_max r hr
    rw [hlen] at this
    exact this

/-- Witness for C9: the calendar of joe. -/
theorem available_shape_witness :
    joeCalendar.WF ∧
    ∃ rs, joeCalendar.available = some rs ∧
      (∀ r ∈ rs, r.valid) ∧
      rs.Pairwise (fun a b => a.from_ < b.from_ ∧ a.to_ < b.from_ ∧
        ∀ i : Int, ¬ (a.contains i ∧ b.contains i)) ∧
      (∀ r ∈ rs, r.from_ = 0 ∨ joeCalendar.occupied (r.from_ - 1)) ∧
      (∀ r ∈ rs, r.to_ = SLOT_CAP ∨ joeCalendar.occupied r.to_) :=
  ⟨by decide, available_shape joeCalendar (by decide)⟩

/-- C10: on a well-formed team `queryAvailable` returns a list of ranges such that a slot index
of the grid lies inside some returned range exactly when that slot is free for every member. -/
theorem queryAvailable_intersection (team : Team) (hwf : team.WF) :
    ∃ rs, SmartAssist.queryAvailable team = some rs ∧
      ∀ i : Int, 0 ≤ i → i < 48 →
        ((∃ r ∈ rs, r.contains i) ↔ ∀ m ∈ team.members, m.2.free i) := by
  obtain ⟨common, rs, _, _, h3, h4, h5⟩ := queryAvailable_spec team hwf.2
  refine ⟨rs, h4, ?_⟩
  intro i h0 h48
  rw [h5.cover i, h3 i h0 h48]

/-- Witness for C10: the team of `main`. -/
theorem queryAvailable_intersection_witness :
    exampleTeam.WF ∧
    ∃ rs, SmartAssist.queryAvailable exampleTeam = some rs ∧
      ∀ i : Int, 0 ≤ i → i < 48 →
        ((∃ r ∈ rs, r.contains i) ↔ ∀ m ∈ exampleTeam.members, m.2.free i) :=
  ⟨by decide, queryAvailable_intersection exampleTeam (by decide)⟩

/-- C11: on a well-formed team `queryAvailable` returns exactly what `available` returns on the
AND of the members' slot vectors (the schedule whose slot is free exactly when it is free for
every member); the result is the ascending list of maximal free runs of that schedule, and for
a one-member team it is that member's `available()`. -/
theorem queryAvailable_refines_available (team : Team) (hwf : team.WF) :
    (commonSchedule team).WF ∧
    (∀ i : Int, 0 ≤ i → i < 48 →
      ((commonSchedule team).free i ↔ ∀ m ∈ team.members, m.2.free i)) ∧
    SmartAssist.queryAvailable team = (commonSchedule team).available ∧
    (∃ rs, SmartAssist.queryAvailable team = some rs ∧
      FreeRangesOf (commonSchedule team).timeslots rs) ∧
    (∀ name c, team.members = [(name, c)] → SmartAssist.queryAvailable team = c.available) := by
  obtain ⟨common, rs, h1, h2, h3, h4, h5⟩ := queryAvailable_spec team hwf.2
  have hq := queryAvailable_eq_available team common h1
  have hcs : common = (commonSchedule team).timeslots := by
    apply slots_eq_of_free_iff common _ h2 (commonSchedule_length team)
    intro i h0 h48
    rw [h3 i h0 h48, commonSchedule_free team i h0 h48]
  refine ⟨?_, ?_, ?_, ⟨rs, h4, hcs ▸ h5⟩, ?_⟩
  · unfold Calendar.WF SLOT_CAP
    rw [commonSchedule_length]
    rfl
  · intro i h0 h48
    exact commonSchedule_free team i h0 h48
  · rw [hq, hcs]
  · intro name c hm
    have hcwf : c.WF := hwf.2 (name, c) (by rw [hm]; exact List.mem_cons_self _ _)
    have hc : common = c.timeslots := by
      apply slots_eq_of_free_iff common _ h2 (c.WF_length hcwf)
      intro i h0 h48
      rw [h3 i h0 h48, hm]
      simp [Calendar.free]
    rw [hq, hc]

/-- Witness for C11: the team of `main`. -/
theorem queryAvailable_refines_available_witness :
    exampleTeam.WF ∧
    ((commonSchedule exampleTeam).WF ∧
    (∀ i : Int, 0 ≤ i → i < 48 →
      ((commonSchedule exampleTeam).free i ↔ ∀ m ∈ exampleTeam.members, m.2.free i)) ∧
    SmartAssist.queryAvailable exampleTeam = (commonSchedule exampleTeam).available ∧
    (∃ rs, SmartAssist.queryAvailable exampleTeam = some rs ∧
      FreeRangesOf (commonSchedule exampleTeam).timeslots rs) ∧
    (∀ name c, exampleTeam.members = [(name, c)] →
      SmartAssist.queryAvailable exampleTeam = c.available)) :=
  ⟨by decide, queryAvailable_refines_available exampleTeam (by decide)⟩

/-- C12: `queryAvailable` on a team without members returns exactly `[(0, 48)]`; a freshly
constructed calendar has its 48 slots free and its `available()` is `[(0, 48)]`. -/
theorem empty_team_fully_available :
    SmartAssist.queryAvailable ⟨[]⟩ = some [⟨0, 48⟩] ∧
    Calendar.new.timeslots = List.replicate 48 true ∧
    (∀ i : Int, 0 ≤ i → i < 48 → Calendar.new.free i) ∧
    Calendar.new.available = some [⟨0, 48⟩] := by
  refine ⟨by decide, rfl, ?_, by decide⟩
  intro i h0 h48
  exact slotAt_replicate_true i h0 h48

/-- C13: on a well-formed team `queryAvailable` returns, and `book` with any of the returned
ranges, on that same team, returns true. -/
theorem available_range_bookable (team : Team) (hwf : team.WF) :
    ∃ rs, SmartAssist.queryAvailable team = some rs ∧
      ∀ r ∈ rs, ∃ team1, SmartAssist.book team r = some (true, team1) := by
  obtain ⟨common, rs, _, h2, h3, h4, h5⟩ := queryAvailable_spec team hwf.2
  refine ⟨rs, h4, ?_⟩
  intro r hr
  have hv := h5.valid r hr
  have hall : ∀ m ∈ team.members, r.valid ∧ ∀ i : Int, r.contains i → m.2.free i := by
    intro m hm
    refine ⟨⟨hv.1, hv.2.1, by unfold SLOT_CAP; omega⟩, ?_⟩
    intro i hi
    have hfree := (h5.cover i).mp ⟨r, hr, hi⟩
    have h0 : 0 ≤ i := by unfold TimeRange.contains at hi; omega
    have h48 : i < 48 := by unfold TimeRange.contains at hi; omega
    exact (h3 i h0 h48).mp hfree m hm
  obtain ⟨ms1, hb, _⟩ := book_true_of_all_free team r hwf hall
  exact ⟨⟨ms1⟩, hb⟩

/-- Witness for C13: the team of `main`, whose available ranges are [0,22) and [28,48). -/
theorem available_range_bookable_witness :
    exampleTeam.WF ∧
    ∃ rs, SmartAssist.queryAvailable exampleTeam = some rs ∧
      ∀ r ∈ rs, ∃ team1, SmartAssist.book exampleTeam r = some (true, team1) :=
  ⟨by decide, available_range_bookable exampleTeam (by decide)⟩

/-- C14: the scenario with tom free, lily busy on [22,28) and joe busy on [24,26), in each of
the six iteration orders: `queryAvailable` gives [(0,22), (28,48)]; `book` with (0,22) returns
true and then `queryAvailable` gives [(28,48)]; `book` with (20,23) then returns false and the
team after that call is the team before it. -/
theorem spec_scenario (t : Team) (ht : t ∈ exampleOrders) :
    SmartAssist.queryAvailable t = some [⟨0, 22⟩, ⟨28, 48⟩] ∧
    SmartAssist.book t ⟨0, 22⟩ = some (true, teamAfterBook t ⟨0, 22⟩) ∧
    SmartAssist.queryAvailable (teamAfterBook t ⟨0, 22⟩) = some [⟨28, 48⟩] ∧
    SmartAssist.book (teamAfterBook t ⟨0, 22⟩) ⟨20, 23⟩ =
      some (false, teamAfterBook t ⟨0, 22⟩) := by
  revert t
  decide

/-- Witness for C14: the order tom, lily, joe, where the team after the first booking is
`exampleTeamBooked`. -/
theorem spec_scenario_witness :
    exampleTeam ∈ exampleOrders ∧ teamAfterBook exampleTeam ⟨0, 22⟩ = exampleTeamBooked ∧
    (SmartAssist.queryAvailable exampleTeam = some [⟨0, 22⟩, ⟨28, 48⟩] ∧
    SmartAssist.book exampleTeam ⟨0, 22⟩ = some (true, teamAfterBook exampleTeam ⟨0, 22⟩) ∧
    SmartAssist.queryAvailable (teamAfterBook exampleTeam ⟨0, 22⟩) = some [⟨28, 48⟩] ∧
    SmartAssist.book (teamAfterBook exampleTeam ⟨0, 22⟩) ⟨20, 23⟩ =
      some (false, teamAfterBook exampleTeam ⟨0, 22⟩)) :=
  ⟨by decide, by decide, spec_scenario exampleTeam (by decide)⟩

/-- C16: on a well-formed team, after `add(id)` the calendar found by `getCalendar(id)` is a
fresh one with its 48 slots free, whether or not `id` was a member before; `id` occurs exactly
once among the members, every other name finds the calendar it found before, and the team is
still well-formed. -/
theorem add_destructive (team : Team) (id : String) (hwf : team.WF) :
    (team.add id).getCalendar id = some Calendar.new ∧
    (∀ i : Int, 0 ≤ i → i < SLOT_CAP → Calendar.new.free i) ∧
    ((team.add id).members.map Prod.fst).count id = 1 ∧
    (∀ other, other ≠ id → (team.add id).getCalendar other = team.getCalendar other) ∧
    (team.add id).WF := by
  have hnew : Calendar.new.WF := by decide
  have hwf1 : (team.add id).WF := Team.addWith_wf team id Calendar.new hwf hnew
  have hget : (team.add id).getCalendar id = some Calendar.new :=
    Team.addWith_get_self team id Calendar.new
  refine ⟨hget, ?_, ?_, ?_, hwf1⟩
  · intro i h0 h48
    exact slotAt_replicate_true i h0 h48
  · apply List.count_eq_one_of_mem hwf1.1
    by_contra hnot
    have := (lookup_eq_none_iff id (team.add id).members).mpr hnot
    unfold Team.getCalendar at hget
    rw [this] at hget
    simp at hget
  · intro other ho
    exact Team.addWith_get_other team id other Calendar.new ho

/-- Witness for C16: `add("lily")` on the team of `main`, where lily was busy on [22,28). -/
theorem add_destructive_witness :
    exampleTeam.WF ∧
    ((exampleTeam.add "lily").getCalendar "lily" = some Calendar.new ∧
    (∀ i : Int, 0 ≤ i → i < SLOT_CAP → Calendar.new.free i) ∧
    ((exampleTeam.add "lily").members.map Prod.fst).count "lily" = 1 ∧
    (∀ other, other ≠ "lily" →
      (exampleTeam.add "lily").getCalendar other = exampleTeam.getCalendar other) ∧
    (exampleTeam.add "lily").WF) :=
  ⟨by decide, add_destructive exampleTeam "lily" (by decide)⟩

/-- C17: on a well-formed team `getCalendar(id)` fails exactly when `id` is not a member;
`remove(id)` leaves the team as it is when `id` is absent; when `id` is present the team loses
one entry, `getCalendar(id)` fails afterwards and every other name finds the calendar it found
before. -/
theorem lookup_and_remove (team : Team) (id : String) (hwf : team.WF) :
    (team.getCalendar id = none ↔ id ∉ team.members.map Prod.fst) ∧
    (id ∉ team.members.map Prod.fst → team.remove id = team) ∧
    (id ∈ team.members.map Prod.fst →
      (team.remove id).getCalendar id = none ∧
      (team.remove id).members.length + 1 = team.members.length ∧
      ∀ other, other ≠ id → (team.remove id).getCalendar other = team.getCalendar other) ∧
    (team.remove id).WF := by
  refine ⟨lookup_eq_none_iff id team.members, ?_, ?_, Team.remove_wf team id hwf⟩
  · intro hnot
    unfold Team.remove
    rw [(find_key_eq_none_iff id team.members).mpr hnot]
  · intro hmem
    have hsome : ∃ x, team.members.find? (fun m => m.1 == id) = some x := by
      cases hf : team.members.find? (fun m => m.1 == id) with
      | some x => exact ⟨x, rfl⟩
      | none => exact absurd hmem ((find_key_eq_none_iff id team.members).mp hf)
    obtain ⟨x, hx⟩ := hsome
    have hrem : team.remove id = ⟨team.members.eraseP (fun m => m.1 == id)⟩ := by
      unfold Team.remove
      rw [hx]
    obtain ⟨h1, h2⟩ := eraseP_key_spec id team.members hwf.1
    rw [hrem]
    refine ⟨?_, ?_, ?_⟩
    · exact (lookup_eq_none_iff id _).mpr h1
    · obtain ⟨y, hy, hyk⟩ := List.mem_map.mp hmem
      exact List.length_eraseP_add_one hy (by simpa using hyk)
    · intro other ho
      exact h2 other ho

/-- Witness for C17: removing joe from the team of `main`. -/
theorem lookup_and_remove_witness :
    exampleTeam.WF ∧
    ((exampleTeam.getCalendar "joe" = none ↔ "joe" ∉ exampleTeam.members.map Prod.fst) ∧
    ("joe" ∉ exampleTeam.members.map Prod.fst → exampleTeam.remove "joe" = exampleTeam) ∧
    ("joe" ∈ exampleTeam.members.map Prod.fst →
      (exampleTeam.remove "joe").getCalendar "joe" = none ∧
      (exampleTeam.remove "joe").members.length + 1 = exampleTeam.members.length ∧
      ∀ other, other ≠ "joe" →
        (exampleTeam.remove "joe").getCalendar other = exampleTeam.getCalendar other) ∧
    (exampleTeam.remove "joe").WF) :=
  ⟨by decide, lookup_and_remove exampleTeam "joe" (by decide)⟩

/-- C18 (evaluation of the code): in `main` the team reaching line 203 has [0,22) booked for
everybody, `book` with {20, 23} returns false there and changes nothing, and with assertions
enabled `main` ends in the failed assertion of line 203 instead of returning 0. -/
theorem main_assert_line_203_fails :
    mainSetup = some exampleTeam ∧
    mainHappyCase = Sum.inr exampleTeamBooked ∧
    SmartAssist.book exampleTeamBooked ⟨20, 23⟩ = some (false, exampleTeamBooked) ∧
    main = MainOutcome.assertFailed 203 ∧
    main ≠ MainOutcome.returned 0 := by
  decide

/-- C19: for every pair `(from, to)`, every slot index that `occupy` reads or writes and every
slot index that `release` writes lies in [0, 48); on a well-formed calendar both calls return
and leave 48 slots; `release` with in-range bounds and `from >= to` touches no slot. -/
theorem slot_accesses_in_grid (c : Calendar) (tr : TimeRange) (hwf : c.WF) :
    (∀ i ∈ c.occupyAccesses tr, 0 ≤ i ∧ i < SLOT_CAP) ∧
    (∀ i ∈ Calendar.releaseAccesses tr, 0 ≤ i ∧ i < SLOT_CAP) ∧
    (∃ b c1, c.occupy tr = some (b, c1) ∧ c1.timeslots.length = 48) ∧
    (∃ c1, c.release tr = some c1 ∧ c1.timeslots.length = 48) ∧
    (0 ≤ tr.from_ → tr.to_ ≤ SLOT_CAP → tr.from_ ≥ tr.to_ →
      Calendar.releaseAccesses tr = [] ∧ c.release tr = some c) := by
  refine ⟨?_, ?_, ?_, ?_, ?_⟩
  · intro i hi
    unfold Calendar.occupyAccesses at hi
    split at hi
    · simp at hi
    · rename_i hg
      rcases List.mem_append.mp hi with h | h
      · have := occupyCheckReads_bounds c.timeslots _ _ i h
        omega
      · split at h
        · have := fillWrites_bounds _ _ i h
          omega
        · simp at h
  · intro i hi
    unfold Calendar.releaseAccesses at hi
    split at hi
    · simp at hi
    · rename_i hg
      have := fillWrites_bounds _ _ i hi
      omega
  · obtain ⟨b, c1, ho, hwf1, _⟩ := c.occupy_spec tr hwf
    exact ⟨b, c1, ho, c1.WF_length hwf1⟩
  · obtain ⟨c1, hr, hwf1, _⟩ := c.release_spec tr hwf
    exact ⟨c1, hr, c1.WF_length hwf1⟩
  · intro h0 h48 hge
    have hn : (tr.to_ - tr.from_).toNat = 0 := by omega
    have hg : ¬ (tr.from_ < 0 ∨ tr.to_ > SLOT_CAP) := by omega
    constructor
    · unfold Calendar.releaseAccesses
      rw [if_neg hg, hn]
      rfl
    · unfold Calendar.release
      rw [if_neg hg, hn]
      rfl

/-- Witness for C19: `release({30, 10})` on the calendar of lily. -/
theorem slot_accesses_in_grid_witness :
    lilyCalendar.WF ∧
    ((∀ i ∈ lilyCalendar.occupyAccesses ⟨30, 10⟩, 0 ≤ i ∧ i < SLOT_CAP) ∧
    (∀ i ∈ Calendar.releaseAccesses ⟨30, 10⟩, 0 ≤ i ∧ i < SLOT_CAP) ∧
    (∃ b c1, lilyCalendar.occupy ⟨30, 10⟩ = some (b, c1) ∧ c1.timeslots.length = 48) ∧
    (∃ c1, lilyCalendar.release ⟨30, 10⟩ = some c1 ∧ c1.timeslots.length = 48) ∧
    ((0 : Int) ≤ 30 → (10 : Int) ≤ SLOT_CAP → (30 : Int) ≥ 10 →
      Calendar.releaseAccesses ⟨30, 10⟩ = [] ∧
      lilyCalendar.release ⟨30, 10⟩ = some lilyCalendar)) :=
  ⟨by decide, slot_accesses_in_grid lilyCalendar ⟨30, 10⟩ (by decide)⟩

/-- C20: `book` on the team without members returns true for every range, valid or not; on a
well-formed team with at least one member, `book` with an invalid range returns false and leaves
the team as it is. -/
theorem book_invalid_range (tr : TimeRange) :
    SmartAssist.book ⟨[]⟩ tr = some (true, ⟨[]⟩) ∧
    ∀ team : Team, team.WF → team.members ≠ [] →
      (tr.from_ < 0 ∨ tr.to_ > SLOT_CAP ∨ tr.from_ ≥ tr.to_) →
      SmartAssist.book team tr = some (false, team) := by
  refine ⟨rfl, ?_⟩
  intro team hwf hne hinv
  apply book_false_of_blocked team tr hwf
  cases hms : team.members with
  | nil => exact absurd hms hne
  | cons m rest =>
    refine ⟨m, List.mem_cons_self _ _, ?_⟩
    rintro ⟨hv, _⟩
    unfold TimeRange.valid at hv
    omega

/-- Witness for C20: the empty range {5, 5} on the empty team and on the team of `main`. -/
theorem book_invalid_range_witness :
    SmartAssist.book ⟨[]⟩ ⟨5, 5⟩ = some (true, ⟨[]⟩) ∧
    exampleTeam.WF ∧ exampleTeam.members ≠ [] ∧
    SmartAssist.book exampleTeam ⟨5, 5⟩ = some (false, exampleTeam) :=
  ⟨(book_invalid_range ⟨5, 5⟩).1, by decide, by decide,
    (book_invalid_range ⟨5, 5⟩).2 exampleTeam (by decide) (by decide) (by decide)⟩

end TeamCalendar
